import Mathlib

/-!
Verification of the filter-compilation and sampling engine of the
AgIR-CVToolkit query layer (`src/agir_cvtoolkit/core/db/filters.py`,
`src/agir_cvtoolkit/core/db/agir_db.py`, `src/agir_cvtoolkit/core/db/types.py`).

The development shallowly embeds the Python code: Python values are modelled
by `PyVal`, fallible Python code returns `Except String`, and the SQLite row
store is modelled by explicit lists of rows.  Machine arithmetic appearing in
the seeded sampling key is modelled on `Int` with an explicit `% 2^31` for the
`& 0x7fffffff` mask.  All definitions are executable.
-/

set_option maxRecDepth 4096

/- Model of the Python values that flow through the filter layer: strings,
integers, booleans, `None`, lists, tuples, sets and (string-keyed) dicts.
`PyList`/`PyDict` are mutually inductive spines so that functions recursing
into containers are structurally recursive (hence kernel-reducible).
Floats are outside the modelled fragment (no claim depends on them). -/
mutual

inductive PyVal : Type where
  | str (s : String)
  | int (n : Int)
  | bool (b : Bool)
  | none
  | list (xs : PyList)
  | tuple (xs : PyList)
  | set (xs : PyList)
  | dict (xs : PyDict)

inductive PyList : Type where
  | nil
  | cons (v : PyVal) (tl : PyList)

inductive PyDict : Type where
  | nil
  | cons (k : String) (v : PyVal) (tl : PyDict)

end

/-- Convert a `PyList` spine to an ordinary Lean list. -/
def PyList.toList : PyList → List PyVal
  | .nil => []
  | .cons v tl => v :: tl.toList

/-- Build a `PyList` spine from an ordinary Lean list. -/
def PyList.ofList : List PyVal → PyList
  | [] => .nil
  | v :: tl => .cons v (PyList.ofList tl)

theorem PyList.toList_ofList (l : List PyVal) : (PyList.ofList l).toList = l := by
  induction l with
  | nil => rfl
  | cons v tl ih => simp [PyList.ofList, PyList.toList, ih]

/-- Lookup in a `PyDict` (first match), modelling Python dict access. -/
def PyDict.lookup : PyDict → String → Option PyVal
  | .nil, _ => Option.none
  | .cons k v tl, key => if k = key then some v else tl.lookup key

/-- Python truthiness (`bool(v)`) for the modelled values. -/
def pyTruthy : PyVal → Bool
  | .str s => s ≠ ""
  | .int n => n ≠ 0
  | .bool b => b
  | .none => false
  | .list xs | .tuple xs | .set xs => (match xs with | .nil => false | _ => true)
  | .dict xs => (match xs with | .nil => false | _ => true)

mutual

/-- Python `==` restricted to the modelled fragment.  `True == 1` and
`False == 0` hold, as in Python; containers compare elementwise. -/
def pyEqb : PyVal → PyVal → Bool
  | .str a, .str b => a == b
  | .int a, .int b => a == b
  | .bool a, .bool b => a == b
  | .int a, .bool b => a == (if b then 1 else 0)
  | .bool a, .int b => (if a then (1 : Int) else 0) == b
  | .none, .none => true
  | .list a, .list b => pyEqbL a b
  | .tuple a, .tuple b => pyEqbL a b
  | .set a, .set b => pyEqbL a b
  | .dict a, .dict b => pyEqbD a b
  | _, _ => false

def pyEqbL : PyList → PyList → Bool
  | .nil, .nil => true
  | .cons a as, .cons b bs => pyEqb a b && pyEqbL as bs
  | _, _ => false

def pyEqbD : PyDict → PyDict → Bool
  | .nil, .nil => true
  | .cons ka va as, .cons kb vb bs => ka == kb && pyEqb va vb && pyEqbD as bs
  | _, _ => false

end

mutual

/-- Python hashability for the modelled fragment: scalars and tuples of
hashables are hashable; lists, sets and dicts are not. -/
def pyHashable : PyVal → Bool
  | .str _ | .int _ | .bool _ | .none => true
  | .tuple xs => pyHashableL xs
  | .list _ | .set _ | .dict _ => false

def pyHashableL : PyList → Bool
  | .nil => true
  | .cons v tl => pyHashable v && pyHashableL tl

end

/-- The single-quote character, kept as a named constant. -/
def squote : String := "\x27"

mutual

/-- Python `repr` for the modelled fragment (strings quoted, containers
rendered with `", "` separators), as used by f-string interpolation of
containers.  Escape sequences inside strings are not modelled. -/
def pyRepr : PyVal → String
  | .str s => squote ++ s ++ squote
  | .int n => toString n
  | .bool b => if b then "True" else "False"
  | .none => "None"
  | .list xs => "[" ++ pyReprL xs ++ "]"
  | .tuple (.cons v .nil) => "(" ++ pyRepr v ++ ",)"
  | .tuple xs => "(" ++ pyReprL xs ++ ")"
  | .set .nil => "set()"
  | .set xs => "\x7b" ++ pyReprL xs ++ "\x7d"
  | .dict xs => "\x7b" ++ pyReprD xs ++ "\x7d"

def pyReprL : PyList → String
  | .nil => ""
  | .cons v .nil => pyRepr v
  | .cons v tl => pyRepr v ++ ", " ++ pyReprL tl

def pyReprD : PyDict → String
  | .nil => ""
  | .cons k v .nil => squote ++ k ++ squote ++ ": " ++ pyRepr v
  | .cons k v tl => squote ++ k ++ squote ++ ": " ++ pyRepr v ++ ", " ++ pyReprD tl

end

/-- Python `str` for the modelled fragment: identity on strings, `repr`
otherwise (containers render their elements with `repr`). -/
def pyStr : PyVal → String
  | .str s => s
  | v => pyRepr v

/-- ASCII word characters, modelling the regex class `\w`
(the unicode extension is outside the modelled fragment). -/
def isWordChar (c : Char) : Bool :=
  c.isAlpha || c.isDigit || c == '_'

/-- Python regex whitespace class `\s` (the common ASCII members). -/
def isPySpace (c : Char) : Bool :=
  c == ' ' || c == '\t' || c == '\n' || c == '\r' || c == '\x0b' || c == '\x0c'

/-- Strip leading and trailing Python whitespace from a character list,
modelling `str.strip()`. -/
def pyStrip (cs : List Char) : List Char :=
  ((cs.dropWhile isPySpace).reverse.dropWhile isPySpace).reverse

/-- Case-insensitive character comparison (ASCII), for `re.IGNORECASE`. -/
def charCI (a b : Char) : Bool :=
  a.toLower == b.toLower

/-- Does `hay` start with `needle`, comparing case-insensitively? -/
def startsCI : List Char → List Char → Bool
  | _, [] => true
  | [], _ :: _ => false
  | h :: hs, n :: ns => charCI h n && startsCI hs ns

/-- Does `hay` contain `needle` as a contiguous subsequence?  Models Python
`needle in hay` on strings (case-sensitive). -/
def containsSeq (needle : List Char) : List Char → Bool
  | [] => needle.isEmpty
  | h :: hs => (needle.isPrefixOf (h :: hs)) || containsSeq needle hs

/-!
Embedding of `src/agir_cvtoolkit/core/db/filters.py`.

The four module-level regexes (`_rx_null`, `_rx_range`, `_rx_bin`,
`_rx_range2`) are anchored patterns over `\s`, `\w`, literal tokens and lazy
`.+?` groups.  They are embedded as deterministic character-list parsers that
implement the regex engine's leftmost/greedy/lazy backtracking semantics for
these particular patterns (the analysis of which backtracking can occur is
recorded at each definition).  `.` not matching a newline is modelled by the
explicit newline checks on captured regions.
-/

/-- One compiled SQL fragment plus its bound parameters
(class `SqlWhere` of `filters.py`). -/
structure SqlWhere where
  sql : String
  params : List PyVal

/-- Models the tail pattern `\s*(?P<cap>.+?)\s*$` (with `needLeadWs = false`)
or `\s+(?P<cap>.+?)\s*$` (with `needLeadWs = true`) of `_rx_bin` and
`_rx_range2`: the returned capture is the input with surrounding whitespace
removed.  When the input is whitespace only, the lazy group can still consume
one non-newline whitespace character, leaving an empty stripped capture; in
that case `some []` is returned (downstream `_lit` strips the capture anyway,
so only emptiness matters). -/
def lazyCapTail (needLeadWs : Bool) (rest : List Char) : Option (List Char) :=
  let stripped := pyStrip rest
  if stripped.isEmpty then
    if needLeadWs then
      if decide (2 ≤ rest.length) && (rest.drop 1).any (fun c => c != '\n') then some [] else Option.none
    else
      if rest.any (fun c => isPySpace c && c != '\n') then some [] else Option.none
  else
    match rest with
    | [] => Option.none
    | c :: _ =>
      if needLeadWs && ¬ isPySpace c then Option.none
      else if stripped.contains '\n' then Option.none
      else some stripped

/-- Does `r` begin with `null` (case-insensitively) followed by only
whitespace, modelling the final `null\s*$` of `_rx_null`? -/
def nullTail (r : List Char) : Bool :=
  startsCI r ['n','u','l','l'] && (r.drop 4).all isPySpace

/-- Model of `_rx_null`: `^\s*(?P<key>\w+)\s+is\s+(?P<neg>not\s+)?null\s*$`
with `re.IGNORECASE`.  Returns the key and whether `not` is present.  The
optional `not\s+` group needs no backtracking: `not` and `null` differ at
their second character, so at most one alternative can proceed. -/
def rx_null (cs : List Char) : Option (List Char × Bool) :=
  let cs1 := cs.dropWhile isPySpace
  let key := cs1.takeWhile isWordChar
  let r1 := cs1.dropWhile isWordChar
  if key.isEmpty then Option.none
  else
    match r1 with
    | [] => Option.none
    | c :: _ =>
      if ¬ isPySpace c then Option.none
      else
        let r2 := r1.dropWhile isPySpace
        if startsCI r2 ['i','s'] then
          let r3 := r2.drop 2
          match r3 with
          | [] => Option.none
          | c2 :: _ =>
            if ¬ isPySpace c2 then Option.none
            else
              let r4 := r3.dropWhile isPySpace
              if startsCI r4 ['n','o','t'] &&
                 (match r4.drop 3 with | c3 :: _ => isPySpace c3 | [] => false) then
                if nullTail ((r4.drop 3).dropWhile isPySpace) then some (key, true) else Option.none
              else
                if nullTail r4 then some (key, false) else Option.none
        else Option.none

/-- Split a character list at its first comma. -/
def splitAtFirstComma : List Char → Option (List Char × List Char)
  | [] => Option.none
  | c :: tl =>
    if c = ',' then some ([], tl)
    else
      match splitAtFirstComma tl with
      | some (a, b) => some (c :: a, b)
      | Option.none => Option.none

/-- Models the bracket body `(?P<lo>.+?),(?P<hi>.+?)\]\s*$` of `_rx_range`,
given the characters after the opening `[`.  Since everything after the
closing `]` must be whitespace, at most one position can serve as that `]`;
the lazy `lo` then ends at the first comma after a non-empty prefix. -/
def bracketBody (r : List Char) : Option (List Char × List Char) :=
  let rev := r.reverse.dropWhile isPySpace
  match rev with
  | ']' :: bodyRev =>
    let body := bodyRev.reverse
    (match body with
     | [] => Option.none
     | b0 :: btl =>
       match splitAtFirstComma btl with
       | some (pre, post) =>
         let lo := b0 :: pre
         let hi := post
         if hi.isEmpty then Option.none
         else if lo.contains '\n' || hi.contains '\n' then Option.none
         else some (lo, hi)
       | Option.none => Option.none)
  | _ => Option.none

/-- Models `\s*(?:in|between)\s*\[` plus the bracket body, applied to the
characters following the key in `_rx_range`.  The two keyword alternatives
start with different letters, so at most one applies. -/
def kwBracket (r : List Char) : Option (List Char × List Char) :=
  let r1 := r.dropWhile isPySpace
  let afterKw :=
    if startsCI r1 ['i','n'] then some (r1.drop 2)
    else if startsCI r1 ['b','e','t','w','e','e','n'] then some (r1.drop 7)
    else Option.none
  match afterKw with
  | some r2 =>
    (match r2.dropWhile isPySpace with
     | '[' :: inner => bracketBody inner
     | _ => Option.none)
  | Option.none => Option.none

/-- Greedy backtracking over the `\w+` key of `_rx_range`: key lengths are
tried from the maximal word run downwards (regex greediness). -/
def rx_rangeLoop (cs1 : List Char) : Nat → Option (List Char × List Char × List Char)
  | 0 => Option.none
  | L + 1 =>
    match kwBracket (cs1.drop (L + 1)) with
    | some (lo, hi) => some (cs1.take (L + 1), lo, hi)
    | Option.none => rx_rangeLoop cs1 L

/-- Model of `_rx_range`:
`^\s*(?P<key>\w+)\s*(?:in|between)\s*\[(?P<lo>.+?),(?P<hi>.+?)\]\s*$`
with `re.IGNORECASE`. -/
def rx_range (cs : List Char) : Option (List Char × List Char × List Char) :=
  let cs1 := cs.dropWhile isPySpace
  rx_rangeLoop cs1 (cs1.takeWhile isWordChar).length

/-- Lazy search for the `\s+and\s+` separator of `_rx_range2`: the boundary
after the (non-empty, newline-free) `lo` prefix is tried left to right. -/
def rx_range2Find (loRev : List Char) (rest : List Char) : Option (List Char × List Char) :=
  let tryHere : Option (List Char) :=
    if loRev.isEmpty || loRev.contains '\n' then Option.none
    else
      match rest with
      | c :: _ =>
        if isPySpace c then
          let r1 := rest.dropWhile isPySpace
          if startsCI r1 ['a','n','d'] then lazyCapTail true (r1.drop 3) else Option.none
        else Option.none
      | [] => Option.none
  match tryHere with
  | some hi => some (loRev.reverse, hi)
  | Option.none =>
    match rest with
    | [] => Option.none
    | c :: tl => rx_range2Find (c :: loRev) tl

/-- Greedy backtracking over the `\w+` key of `_rx_range2` (the keyword
`between` is made of word characters, so the key run must be backtracked). -/
def rx_range2Loop (cs1 : List Char) : Nat → Option (List Char × List Char × List Char)
  | 0 => Option.none
  | L + 1 =>
    let r := (cs1.drop (L + 1)).dropWhile isPySpace
    let here :=
      if startsCI r ['b','e','t','w','e','e','n'] then
        let r2 := r.drop 7
        match r2 with
        | c :: _ =>
          if isPySpace c then rx_range2Find [] (r2.dropWhile isPySpace) else Option.none
        | [] => Option.none
      else Option.none
    match here with
    | some (lo, hi) => some (cs1.take (L + 1), lo, hi)
    | Option.none => rx_range2Loop cs1 L

/-- Model of `_rx_range2`:
`^\s*(?P<key>\w+)\s*between\s+(?P<lo>.+?)\s+and\s+(?P<hi>.+?)\s*$`
with `re.IGNORECASE`.  The greedy `\s+` after `between` fixes the start of
the lazy `lo` at the end of the whitespace run (shortening the run never
enables a match: it only prepends whitespace to `lo` and creates no new
separator boundary). -/
def rx_range2 (cs : List Char) : Option (List Char × List Char × List Char) :=
  let cs1 := cs.dropWhile isPySpace
  rx_range2Loop cs1 (cs1.takeWhile isWordChar).length

/-- The ordered operator alternation `(?P<op>==|>=|<=|>|<)` of `_rx_bin`. -/
def opAt (r : List Char) : Option (String × List Char) :=
  if ['=','='].isPrefixOf r then some ("==", r.drop 2)
  else if ['>','='].isPrefixOf r then some (">=", r.drop 2)
  else if ['<','='].isPrefixOf r then some ("<=", r.drop 2)
  else if ['>'].isPrefixOf r then some (">", r.drop 1)
  else if ['<'].isPrefixOf r then some ("<", r.drop 1)
  else Option.none

/-- Model of `_rx_bin`: `^\s*(?P<key>\w+)\s*(?P<op>==|>=|<=|>|<)\s*(?P<rhs>.+?)\s*$`.
No key backtracking is possible (operators are neither word characters nor
whitespace). -/
def rx_bin (cs : List Char) : Option (List Char × String × List Char) :=
  let cs1 := cs.dropWhile isPySpace
  let key := cs1.takeWhile isWordChar
  let r1 := (cs1.dropWhile isWordChar).dropWhile isPySpace
  if key.isEmpty then Option.none
  else
    match opAt r1 with
    | some (op, rest) =>
      (match lazyCapTail false rest with
       | some rhs => some (key, op, rhs)
       | Option.none => Option.none)
    | Option.none => Option.none

/-- The single-quote character (code 39), used by the literal parser. -/
def squoteChar : Char := Char.ofNat 39

/-- Fold decimal digits into a natural number. -/
def digitsToNat (ds : List Char) : Nat :=
  ds.foldl (fun acc c => acc * 10 + (c.toNat - 48)) 0

/-- Is the position not continuing an identifier (so that `True`/`False`/
`None` are complete words)? -/
def noWordAt (cs : List Char) : Bool :=
  match cs with
  | [] => true
  | c :: _ => ¬ isWordChar c

mutual

/-- Model of `ast.literal_eval` (as invoked by `_lit`), restricted to the
literal fragment that the filter layer exercises: decimal integers with an
optional sign, quoted strings without escape sequences, `True`/`False`/`None`,
and (possibly nested) list/tuple displays with optional trailing commas.
Inputs outside this fragment (floats, hex literals, escape sequences,
implicit string concatenation, set/dict displays) are rejected, which sends
`_lit` to its string fallback.  Fuel-based recursion keeps the definition
kernel-reducible; `litEval` supplies sufficient fuel. -/
def litParseVal : Nat → List Char → Option (PyVal × List Char)
  | 0, _ => Option.none
  | fuel + 1, cs0 =>
    let cs := cs0.dropWhile isPySpace
    match cs with
    | [] => Option.none
    | c :: tl =>
      if c = '[' then
        match litParseItems fuel ']' tl with
        | some (items, _, rest) => some (.list (PyList.ofList items), rest)
        | Option.none => Option.none
      else if c = '(' then
        match litParseItems fuel ')' tl with
        | some ([v], false, rest) => some (v, rest)
        | some (items, _, rest) => some (.tuple (PyList.ofList items), rest)
        | Option.none => Option.none
      else if c = squoteChar || c = '"' then
        litParseStr fuel c [] tl
      else if c.isDigit then
        litNum fuel false cs
      else if c = '-' then
        litNum fuel true (tl.dropWhile isPySpace)
      else if c = '+' then
        litNum fuel false (tl.dropWhile isPySpace)
      else if ['T','r','u','e'].isPrefixOf cs && noWordAt (cs.drop 4) then
        some (.bool true, cs.drop 4)
      else if ['F','a','l','s','e'].isPrefixOf cs && noWordAt (cs.drop 5) then
        some (.bool false, cs.drop 5)
      else if ['N','o','n','e'].isPrefixOf cs && noWordAt (cs.drop 4) then
        some (.none, cs.drop 4)
      else Option.none

/-- Parse an unsigned decimal integer (rejecting float/complex/underscore
continuations), applying the sign collected by `litParseVal`. -/
def litNum : Nat → Bool → List Char → Option (PyVal × List Char)
  | 0, _, _ => Option.none
  | _ + 1, negate, cs =>
    let ds := cs.takeWhile (·.isDigit)
    let rest := cs.dropWhile (·.isDigit)
    if ds.isEmpty then Option.none
    else
      match rest with
      | [] =>
        some (.int (if negate then -(digitsToNat ds : Int) else (digitsToNat ds : Int)), [])
      | c :: _ =>
        if c = '.' || c = '_' || c.isAlpha then Option.none
        else some (.int (if negate then -(digitsToNat ds : Int) else (digitsToNat ds : Int)), rest)

/-- Parse a quoted string until the closing quote `q`; literal newlines,
backslashes and end-of-input are rejected. -/
def litParseStr : Nat → Char → List Char → List Char → Option (PyVal × List Char)
  | 0, _, _, _ => Option.none
  | fuel + 1, q, acc, cs =>
    match cs with
    | [] => Option.none
    | c :: tl =>
      if c = q then some (.str (String.mk acc.reverse), tl)
      else if c = '\n' || c = '\\' then Option.none
      else litParseStr fuel q (c :: acc) tl

/-- Parse the comma-separated items of a list/tuple display up to the closing
bracket `closer`, reporting whether a trailing comma was present. -/
def litParseItems : Nat → Char → List Char → Option (List PyVal × Bool × List Char)
  | 0, _, _ => Option.none
  | fuel + 1, closer, cs =>
    let cs1 := cs.dropWhile isPySpace
    match cs1 with
    | [] => Option.none
    | c :: rest =>
      if c = closer then some ([], false, rest)
      else
        match litParseVal fuel cs1 with
        | some (v, r) =>
          let r1 := r.dropWhile isPySpace
          (match r1 with
           | [] => Option.none
           | c2 :: r2 =>
             if c2 = ',' then
               match litParseItems fuel closer r2 with
               | some (items, trailing, rest2) =>
                 some (v :: items, (if items.isEmpty then true else trailing), rest2)
               | Option.none => Option.none
             else if c2 = closer then some ([v], false, r2)
             else Option.none)
        | Option.none => Option.none

end

/-- Model of `ast.literal_eval` on a whole input: parse one literal and
require only whitespace after it. -/
def litEval (cs : List Char) : Option PyVal :=
  match litParseVal (cs.length + 1) cs with
  | some (v, rest) => if (rest.dropWhile isPySpace).isEmpty then some v else Option.none
  | Option.none => Option.none

/-- Model of `_lit`: strip, try `ast.literal_eval`, fall back to the stripped
text itself on any failure. -/
def lit (cs : List Char) : PyVal :=
  let t := pyStrip cs
  match litEval t with
  | some v => v
  | Option.none => .str (String.mk t)

/-- `IN_CHUNK` of `filters.py`: maximum number of parameters per `IN` clause. -/
def IN_CHUNK : Nat := 1000

/-- `DEFAULT_ID_COL` of `filters.py`. -/
def DEFAULT_ID_COL : String := "cutout_id"

/-- Python `sep.join(parts)`. -/
def joinSep (sep : String) : List String → String
  | [] => ""
  | [s] => s
  | s :: rest => s ++ sep ++ joinSep sep rest

/-- Split a list into consecutive chunks of size `k` (the last chunk may be
shorter), modelling `for i in range(0, len(rhs), IN_CHUNK): rhs[i:i+IN_CHUNK]`.
Fuel-based so that the definition is kernel-reducible; `chunksOf` supplies
sufficient fuel for any `k ≥ 1`. -/
def chunksOfAux (k : Nat) : Nat → List α → List (List α)
  | _, [] => []
  | 0, _ :: _ => []
  | fuel + 1, x :: tl => (x :: tl).take k :: chunksOfAux k fuel ((x :: tl).drop k)

/-- Chunking with fuel instantiated. -/
def chunksOf (k : Nat) (l : List α) : List (List α) :=
  chunksOfAux k l.length l

/-- One `IN (...)` fragment for a chunk: models
`SqlWhere(sql=f"{key} IN ({','.join('?' for _ in chunk)})", params=tuple(chunk))`. -/
def inFrag (key : String) (chunk : List PyVal) : SqlWhere :=
  ⟨key ++ " IN (" ++ joinSep "," (chunk.map (fun _ => "?")) ++ ")", chunk⟩

/-- The membership branch of `parse_filter`: chunk the right-hand-side list,
emit one `IN` fragment per chunk, and OR-combine multiple fragments into one
parenthesized fragment with the chunk parameter tuples concatenated. -/
def inChunksResult (key : String) (vs : List PyVal) : List SqlWhere :=
  let parts := (chunksOf IN_CHUNK vs).map (inFrag key)
  if parts.length = 1 then parts
  else
    [⟨"(" ++ joinSep " OR " (parts.map (fun p => p.sql)) ++ ")",
      (parts.map (fun p => p.params)).flatten⟩]

/-- Model of `parse_filter`: try `_rx_null`, `_rx_range`, `_rx_range2`,
`_rx_bin` in order; raise `ValueError` (modelled as `Except.error`) when no
rule matches. -/
def parse_filter (expr : String) : Except String (List SqlWhere) :=
  let cs := expr.data
  match rx_null cs with
  | some (key, neg) =>
    .ok [⟨String.mk key ++ " IS " ++ (if neg then "NOT " else "") ++ "NULL", []⟩]
  | Option.none =>
  match rx_range cs with
  | some (key, lo, hi) =>
    .ok [⟨String.mk key ++ " BETWEEN ? AND ?", [lit lo, lit hi]⟩]
  | Option.none =>
  match rx_range2 cs with
  | some (key, lo, hi) =>
    .ok [⟨String.mk key ++ " BETWEEN ? AND ?", [lit lo, lit hi]⟩]
  | Option.none =>
  match rx_bin cs with
  | some (key, op, rhsRaw) =>
    (match lit rhsRaw with
     | .list xs => .ok (inChunksResult (String.mk key) xs.toList)
     | .tuple xs => .ok (inChunksResult (String.mk key) xs.toList)
     | rhs =>
       let op2 := if op = "==" then "=" else op
       .ok [⟨String.mk key ++ " " ++ op2 ++ " ?", [rhs]⟩])
  | Option.none => .error ("Bad filter expr: " ++ expr)

/-- One step of the `build_where` loop: parse an expression and append its
SQL part and parameters (a multi-fragment result is parenthesized and
OR-joined, mirroring the source even though `parse_filter` already combines
chunked fragments). -/
def buildWhereStep (acc : List String × List PyVal) (e : String) :
    Except String (List String × List PyVal) := do
  let ws ← parse_filter e
  match ws with
  | [w] => pure (acc.1 ++ [w.sql], acc.2 ++ w.params)
  | _ =>
    pure (acc.1 ++ ["(" ++ joinSep " OR " (ws.map (fun w => w.sql)) ++ ")"],
          acc.2 ++ (ws.map (fun w => w.params)).flatten)

/-- Model of `build_where`: AND-join the parts of all expressions, returning
the WHERE text and the parameter tuple; the empty input yields `("", ())`. -/
def build_where (exprs : List String) : Except String (String × List PyVal) :=
  if exprs.isEmpty then .ok ("", [])
  else do
    let (parts, params) ← exprs.foldlM buildWhereStep ([], [])
    pure (" WHERE " ++ joinSep " AND " parts, params)

/-- Number of `?` placeholders in a piece of SQL text. -/
def countQ (s : String) : Nat :=
  s.data.countP (fun c => c == '?')

example : parse_filter "a==1" = .ok [⟨"a = ?", [.int 1]⟩] := rfl
example : parse_filter "a == barley" = .ok [⟨"a = ?", [.str "barley"]⟩] := rfl
example : parse_filter "mask_path is not null" = .ok [⟨"mask_path IS NOT NULL", []⟩] := rfl
example : parse_filter "x is  NULL " = .ok [⟨"x IS NULL", []⟩] := rfl
example : parse_filter "area in [1,5]" = .ok [⟨"area BETWEEN ? AND ?", [.int 1, .int 5]⟩] := rfl
example : parse_filter "area between [1, 5]" = .ok [⟨"area BETWEEN ? AND ?", [.int 1, .int 5]⟩] := rfl
example : parse_filter "area between 1 and 5" = .ok [⟨"area BETWEEN ? AND ?", [.int 1, .int 5]⟩] := rfl
example : parse_filter "k==[1,2]" =
    .ok [⟨"k IN (?,?)", [.int 1, .int 2]⟩] := rfl
example : parse_filter "k==['a','b']" =
    .ok [⟨"k IN (?,?)", [.str "a", .str "b"]⟩] := rfl
example : parse_filter "score>=0.5" = .ok [⟨"score >= ?", [.str "0.5"]⟩] := rfl
example : parse_filter "nonsense" = .error "Bad filter expr: nonsense" := rfl
example : build_where [] = .ok ("", []) := rfl
example : build_where ["a==1", "b is null"] =
    .ok (" WHERE a = ? AND b IS NULL", [.int 1]) := rfl

theorem countQ_append (a b : String) : countQ (a ++ b) = countQ a + countQ b := by
  simp [countQ, String.data_append, List.countP_append]

theorem countQ_mk (l : List Char) : countQ (String.mk l) = l.countP (fun c => c == '?') := rfl

theorem countP_eq_zero_of_word {l : List Char} (h : ∀ c ∈ l, isWordChar c) :
    l.countP (fun c => c == '?') = 0 := by
  rw [List.countP_eq_zero]
  intro c hc
  have hw := h c hc
  simp only [beq_iff_eq]
  intro hq
  subst hq
  simp [isWordChar] at hw

theorem mem_take_takeWhile_word {cs : List Char} {n : Nat} {c : Char}
    (hc : c ∈ (cs.takeWhile isWordChar).take n) : isWordChar c :=
  List.mem_takeWhile_imp ((cs.takeWhile isWordChar).take_sublist n |>.mem hc)

theorem rx_null_key_word {cs : List Char} {key : List Char} {neg : Bool}
    (h : rx_null cs = some (key, neg)) : ∀ c ∈ key, isWordChar c := by
  simp only [rx_null] at h
  repeat' split at h
  all_goals
    try (injection h with h1; injection h1 with hk hn; subst hk;
         intro c hc; exact List.mem_takeWhile_imp hc)
  all_goals simp at h

theorem rx_rangeLoop_key_word {cs1 : List Char} {L : Nat} {key lo hi : List Char}
    (h : rx_rangeLoop cs1 L = some (key, lo, hi))
    (hL : L ≤ (cs1.takeWhile isWordChar).length) : ∀ c ∈ key, isWordChar c := by
  induction L with
  | zero => simp [rx_rangeLoop] at h
  | succ n ih =>
    unfold rx_rangeLoop at h
    split at h
    · injection h with h1
      injection h1 with hk htl
      subst hk
      intro c hc
      have : cs1.take (n + 1) = (cs1.takeWhile isWordChar).take (n + 1) := by
        conv_lhs => rw [← List.takeWhile_append_dropWhile (p := isWordChar) (l := cs1)]
        rw [List.take_append_of_le_length hL]
      rw [this] at hc
      exact mem_take_takeWhile_word hc
    · exact ih h (Nat.le_of_succ_le hL)

theorem rx_range_key_word {cs : List Char} {key lo hi : List Char}
    (h : rx_range cs = some (key, lo, hi)) : ∀ c ∈ key, isWordChar c := by
  unfold rx_range at h
  exact rx_rangeLoop_key_word h (Nat.le_refl _)

theorem rx_range2Loop_key_word {cs1 : List Char} {L : Nat} {key lo hi : List Char}
    (h : rx_range2Loop cs1 L = some (key, lo, hi))
    (hL : L ≤ (cs1.takeWhile isWordChar).length) : ∀ c ∈ key, isWordChar c := by
  induction L with
  | zero => simp [rx_range2Loop] at h
  | succ n ih =>
    simp only [rx_range2Loop] at h
    repeat' split at h
    · injection h with h1
      injection h1 with hk htl
      subst hk
      intro c hc
      have : cs1.take (n + 1) = (cs1.takeWhile isWordChar).take (n + 1) := by
        conv_lhs => rw [← List.takeWhile_append_dropWhile (p := isWordChar) (l := cs1)]
        rw [List.take_append_of_le_length hL]
      rw [this] at hc
      exact mem_take_takeWhile_word hc
    · exact ih h (Nat.le_of_succ_le hL)

theorem rx_range2_key_word {cs : List Char} {key lo hi : List Char}
    (h : rx_range2 cs = some (key, lo, hi)) : ∀ c ∈ key, isWordChar c := by
  unfold rx_range2 at h
  exact rx_range2Loop_key_word h (Nat.le_refl _)

theorem rx_bin_key_word {cs : List Char} {key : List Char} {op : String} {rhs : List Char}
    (h : rx_bin cs = some (key, op, rhs)) : ∀ c ∈ key, isWordChar c := by
  simp only [rx_bin] at h
  repeat' split at h
  all_goals
    try (injection h with h1; injection h1 with hk hn; subst hk;
         intro c hc; exact List.mem_takeWhile_imp hc)
  all_goals simp at h

theorem opAt_cases {r : List Char} {op : String} {rest : List Char}
    (h : opAt r = some (op, rest)) :
    op = "==" ∨ op = ">=" ∨ op = "<=" ∨ op = ">" ∨ op = "<" := by
  simp only [opAt] at h
  repeat' split at h
  all_goals
    try (injection h with h1; injection h1 with hk hn; subst hk; simp)
  all_goals simp at h

theorem joinSep_cons₂ (sep a b : String) (r : List String) :
    joinSep sep (a :: b :: r) = a ++ sep ++ joinSep sep (b :: r) := rfl

theorem countQ_joinSep_qmarks (l : List PyVal) :
    countQ (joinSep "," (l.map (fun _ => "?"))) = l.length := by
  induction l with
  | nil => rfl
  | cons x tl ih =>
    cases tl with
    | nil => rfl
    | cons y tl' =>
      simp only [List.map_cons] at ih ⊢
      rw [joinSep_cons₂, countQ_append, countQ_append, ih]
      have h1 : countQ "?" = 1 := rfl
      have h2 : countQ "," = 0 := rfl
      rw [h1, h2]
      simp [List.length_cons]
      omega

theorem countQ_joinSep_zero {sep : String} (hsep : countQ sep = 0) (parts : List String) :
    countQ (joinSep sep parts) = (parts.map countQ).sum := by
  induction parts with
  | nil => rfl
  | cons x tl ih =>
    cases tl with
    | nil => simp [joinSep]
    | cons y tl' =>
      rw [joinSep_cons₂, countQ_append, countQ_append, hsep, ih]
      simp [List.map_cons]

theorem chunksOfAux_flatten {k : Nat} (hk : 1 ≤ k) :
    ∀ (fuel : Nat) (l : List α), l.length ≤ fuel → (chunksOfAux k fuel l).flatten = l := by
  intro fuel
  induction fuel with
  | zero =>
    intro l hl
    cases l with
    | nil => rfl
    | cons x tl => simp at hl
  | succ n ih =>
    intro l hl
    cases l with
    | nil => rfl
    | cons x tl =>
      simp only [chunksOfAux, List.flatten_cons]
      rw [ih ((x :: tl).drop k)
            (by simp only [List.length_drop, List.length_cons] at hl ⊢; omega)]
      exact List.take_append_drop k (x :: tl)

theorem chunksOf_flatten {k : Nat} (hk : 1 ≤ k) (l : List α) :
    (chunksOf k l).flatten = l :=
  chunksOfAux_flatten hk l.length l (Nat.le_refl _)

theorem chunksOfAux_mem_length {k fuel : Nat} {l c : List α}
    (hc : c ∈ chunksOfAux k fuel l) : c.length ≤ k := by
  induction fuel generalizing l with
  | zero =>
    cases l with
    | nil => simp [chunksOfAux] at hc
    | cons x tl => simp [chunksOfAux] at hc
  | succ n ih =>
    cases l with
    | nil => simp [chunksOfAux] at hc
    | cons x tl =>
      simp only [chunksOfAux, List.mem_cons] at hc
      rcases hc with hc | hc
      · subst hc
        simp [List.length_take]
      · exact ih hc

theorem chunksOf_mem_length {k : Nat} {l c : List α} (hc : c ∈ chunksOf k l) :
    c.length ≤ k :=
  chunksOfAux_mem_length hc

theorem chunksOf_two_le {k : Nat} {l : List α} (hk : 1 ≤ k) (hlen : k < l.length) :
    2 ≤ (chunksOf k l).length := by
  unfold chunksOf
  cases l with
  | nil => simp at hlen
  | cons x tl =>
    show 2 ≤ (chunksOfAux k (tl.length + 1) (x :: tl)).length
    rw [show chunksOfAux k (tl.length + 1) (x :: tl)
          = (x :: tl).take k :: chunksOfAux k tl.length ((x :: tl).drop k) from rfl]
    simp only [List.length_cons]
    have hne : (x :: tl).drop k ≠ [] := by
      have hld := List.length_drop k (x :: tl)
      intro hc
      rw [hc] at hld
      simp only [List.length_nil, List.length_cons] at hld
      simp only [List.length_cons] at hlen
      omega
    have hres0 : chunksOfAux k tl.length ((x :: tl).drop k) ≠ [] := by
      cases hdrop : (x :: tl).drop k with
      | nil => exact absurd hdrop hne
      | cons y ys =>
        cases htl : tl.length with
        | zero =>
          exfalso
          have hld := List.length_drop k (x :: tl)
          rw [hdrop] at hld
          simp only [List.length_cons] at hld
          omega
        | succ m => simp [chunksOfAux]
    cases hres : chunksOfAux k tl.length ((x :: tl).drop k) with
    | nil => exact absurd hres hres0
    | cons c cs =>
      simp [List.length_cons]

theorem rx_bin_op_cases {cs : List Char} {key : List Char} {op : String} {rhs : List Char}
    (h : rx_bin cs = some (key, op, rhs)) :
    op = "==" ∨ op = ">=" ∨ op = "<=" ∨ op = ">" ∨ op = "<" := by
  simp only [rx_bin] at h
  repeat' split at h
  all_goals try
    (simp only [Option.some.injEq, Prod.mk.injEq] at h;
     obtain ⟨hk, hop, hr⟩ := h; subst hop; exact opAt_cases (by assumption))
  all_goals simp at h

theorem countQ_key_zero {key : List Char} (h : ∀ c ∈ key, isWordChar c) :
    countQ (String.mk key) = 0 := by
  rw [countQ_mk]
  exact countP_eq_zero_of_word h

theorem inFrag_countQ {key : String} (hkey : countQ key = 0) (c : List PyVal) :
    countQ (inFrag key c).sql = (inFrag key c).params.length := by
  show countQ (key ++ " IN (" ++ joinSep "," (c.map (fun _ => "?")) ++ ")") = c.length
  rw [countQ_append, countQ_append, countQ_append, hkey, countQ_joinSep_qmarks]
  have h1 : countQ " IN (" = 0 := rfl
  have h2 : countQ ")" = 0 := rfl
  omega

theorem inChunksResult_frag {key : String} (hkey : countQ key = 0) (vs : List PyVal) :
    ∀ w ∈ inChunksResult key vs, countQ w.sql = w.params.length := by
  intro w hw
  simp only [inChunksResult] at hw
  split at hw
  · simp only [List.mem_map] at hw
    obtain ⟨c, _, hc⟩ := hw
    subst hc
    exact inFrag_countQ hkey c
  · simp only [List.mem_singleton] at hw
    subst hw
    show countQ ("(" ++ joinSep " OR "
        (((chunksOf IN_CHUNK vs).map (inFrag key)).map (fun p => p.sql)) ++ ")") = _
    rw [countQ_append, countQ_append,
        countQ_joinSep_zero (by rfl : countQ " OR " = 0)]
    simp only [List.map_map, List.length_flatten]
    have hparen1 : countQ "(" = 0 := rfl
    have hparen2 : countQ ")" = 0 := rfl
    rw [hparen1, hparen2]
    have hmap : List.map (countQ ∘ (fun p => p.sql) ∘ inFrag key) (chunksOf IN_CHUNK vs)
        = List.map (List.length ∘ (fun p => p.params) ∘ inFrag key) (chunksOf IN_CHUNK vs) := by
      apply List.map_congr_left
      intro c _
      exact inFrag_countQ hkey c
    rw [hmap]
    omega

theorem parse_filter_frag {e : String} {ws : List SqlWhere}
    (h : parse_filter e = .ok ws) : ∀ w ∈ ws, countQ w.sql = w.params.length := by
  simp only [parse_filter] at h
  split at h
  case h_1 key neg heq =>
    injection h with h1
    subst h1
    intro w hw
    simp only [List.mem_singleton] at hw
    subst hw
    show countQ (String.mk key ++ " IS " ++ (if neg then "NOT " else "") ++ "NULL") = 0
    rw [countQ_append, countQ_append, countQ_append,
        countQ_key_zero (rx_null_key_word heq)]
    cases neg <;> rfl
  case h_2 =>
    split at h
    case h_1 key lo hi heq =>
      injection h with h1
      subst h1
      intro w hw
      simp only [List.mem_singleton] at hw
      subst hw
      show countQ (String.mk key ++ " BETWEEN ? AND ?") = 2
      rw [countQ_append, countQ_key_zero (rx_range_key_word heq)]
      rfl
    case h_2 =>
      split at h
      case h_1 key lo hi heq =>
        injection h with h1
        subst h1
        intro w hw
        simp only [List.mem_singleton] at hw
        subst hw
        show countQ (String.mk key ++ " BETWEEN ? AND ?") = 2
        rw [countQ_append, countQ_key_zero (rx_range2_key_word heq)]
        rfl
      case h_2 =>
        split at h
        case h_1 key op rhsRaw heq =>
          have hkey : countQ (String.mk key) = 0 :=
            countQ_key_zero (rx_bin_key_word heq)
          split at h
          · injection h with h1
            subst h1
            exact inChunksResult_frag hkey _
          · injection h with h1
            subst h1
            exact inChunksResult_frag hkey _
          · injection h with h1
            subst h1
            intro w hw
            simp only [List.mem_singleton] at hw
            subst hw
            show countQ (String.mk key ++ " " ++
              (if op = "==" then "=" else op) ++ " ?") = 1
            rw [countQ_append, countQ_append, countQ_append, hkey]
            have hop : countQ (if op = "==" then "=" else op) = 0 := by
              rcases rx_bin_op_cases heq with h5 | h5 | h5 | h5 | h5 <;> subst h5 <;> rfl
            rw [hop]
            rfl
        case h_2 => exact absurd h (by simp)

/-- The SQL part contributed by one parsed expression in `build_where`. -/
def partSql (ws : List SqlWhere) : String :=
  match ws with
  | [w] => w.sql
  | _ => "(" ++ joinSep " OR " (ws.map (fun w => w.sql)) ++ ")"

/-- The parameters contributed by one parsed expression in `build_where`. -/
def fragParams (ws : List SqlWhere) : List PyVal :=
  (ws.map (fun w => w.params)).flatten

theorem buildWhereStep_eq {acc : List String × List PyVal} {e : String}
    {res : List String × List PyVal} (h : buildWhereStep acc e = .ok res) :
    ∃ ws, parse_filter e = .ok ws ∧
      res = (acc.1 ++ [partSql ws], acc.2 ++ fragParams ws) := by
  unfold buildWhereStep at h
  cases hp : parse_filter e with
  | error err => rw [hp] at h; exact absurd h (by simp [Bind.bind, Except.bind])
  | ok ws =>
    rw [hp] at h
    refine ⟨ws, rfl, ?_⟩
    match ws with
    | [w] =>
      simp only [Except.bind, pure, Except.pure] at h
      injection h with h1
      subst h1
      simp [partSql, fragParams]
    | [] =>
      simp only [Except.bind, pure, Except.pure] at h
      injection h with h1
      subst h1
      simp [partSql, fragParams]
    | w1 :: w2 :: tl =>
      simp only [Except.bind, pure, Except.pure] at h
      injection h with h1
      subst h1
      simp [partSql, fragParams]

theorem buildWhere_fold :
    ∀ (exprs : List String) (acc : List String × List PyVal)
      (res : List String × List PyVal),
      List.foldlM buildWhereStep acc exprs = .ok res →
      ∃ frs, exprs.mapM parse_filter = .ok frs ∧
        res.1 = acc.1 ++ frs.map partSql ∧
        res.2 = acc.2 ++ (frs.map fragParams).flatten := by
  intro exprs
  induction exprs with
  | nil =>
    intro acc res h
    simp only [List.foldlM_nil, pure, Except.pure] at h
    injection h with h1
    subst h1
    exact ⟨[], rfl, by simp, by simp⟩
  | cons e tl ih =>
    intro acc res h
    rw [List.foldlM_cons] at h
    cases hstep : buildWhereStep acc e with
    | error err =>
      rw [hstep] at h
      exact absurd h (by simp [Bind.bind, Except.bind])
    | ok acc' =>
      rw [hstep] at h
      simp only [Bind.bind, Except.bind] at h
      obtain ⟨ws, hws, hacc'⟩ := buildWhereStep_eq hstep
      obtain ⟨frs, hfrs, h1, h2⟩ := ih acc' res h
      refine ⟨ws :: frs, ?_, ?_, ?_⟩
      · rw [List.mapM_cons, hws, hfrs]
        rfl
      · rw [h1, hacc']
        simp
      · rw [h2, hacc']
        simp

theorem mapM_parse_mem :
    ∀ {exprs : List String} {frs : List (List SqlWhere)},
      exprs.mapM parse_filter = .ok frs →
      ∀ ws ∈ frs, ∃ e, parse_filter e = .ok ws := by
  intro exprs
  induction exprs with
  | nil =>
    intro frs h ws hws
    have h0 : (Except.ok [] : Except String (List (List SqlWhere))) = .ok frs := h
    injection h0 with h1
    subst h1
    simp at hws
  | cons e tl ih =>
    intro frs h ws hws
    rw [List.mapM_cons] at h
    cases hp : parse_filter e with
    | error err => rw [hp] at h; exact absurd h (by simp [Bind.bind, Except.bind])
    | ok w =>
      rw [hp] at h
      cases hm : tl.mapM parse_filter with
      | error err =>
        rw [hm] at h
        exact absurd h (by simp [Bind.bind, Except.bind])
      | ok rest =>
        rw [hm] at h
        simp only [Bind.bind, Except.bind, pure, Except.pure] at h
        injection h with h1
        subst h1
        rcases List.mem_cons.mp hws with hws | hws
        · subst hws
          exact ⟨e, hp⟩
        · exact ih hm ws hws

theorem parenJoin_countQ {ws : List SqlWhere}
    (h : ∀ w ∈ ws, countQ w.sql = w.params.length) :
    countQ ("(" ++ joinSep " OR " (ws.map (fun w => w.sql)) ++ ")")
      = (fragParams ws).length := by
  rw [countQ_append, countQ_append, countQ_joinSep_zero (by rfl : countQ " OR " = 0)]
  have h1 : countQ "(" = 0 := rfl
  have h2 : countQ ")" = 0 := rfl
  rw [h1, h2]
  simp only [fragParams, List.length_flatten, List.map_map]
  have hmap : List.map (countQ ∘ fun w => w.sql) ws
      = List.map (List.length ∘ fun w => w.params) ws := by
    apply List.map_congr_left
    intro w hw
    exact h w hw
  rw [hmap]
  omega

theorem partSql_countQ {ws : List SqlWhere}
    (h : ∀ w ∈ ws, countQ w.sql = w.params.length) :
    countQ (partSql ws) = (fragParams ws).length := by
  match ws with
  | [w] =>
    show countQ w.sql = (fragParams [w]).length
    have hf : fragParams [w] = w.params := by simp [fragParams]
    rw [hf]
    exact h w (by simp)
  | [] => exact parenJoin_countQ h
  | w1 :: w2 :: tl => exact parenJoin_countQ h

/-- Claim C1: for every list of canonical filter expressions that compiles,
`build_where` returns a WHERE text and a parameter tuple such that the number
of `?` placeholders in the text equals the length of the tuple; the
parameters are exactly the concatenation, in left-to-right expression and
fragment order, of the fragment parameter tuples, and the text is the
AND-join of the per-expression parts in the same order (every fragment
individually has as many `?` as parameters, so the alignment holds fragment
by fragment); the empty list yields an empty WHERE text and no parameters. -/
theorem build_where_placeholder_alignment
    (exprs : List String) (w : String) (ps : List PyVal)
    (h : build_where exprs = .ok (w, ps)) :
    countQ w = ps.length ∧
    (∃ frs : List (List SqlWhere),
        exprs.mapM parse_filter = .ok frs ∧
        ps = (frs.map fragParams).flatten ∧
        (¬ exprs.isEmpty → w = " WHERE " ++ joinSep " AND " (frs.map partSql)) ∧
        ∀ f ∈ frs.flatten, countQ f.sql = f.params.length) ∧
    (exprs = [] → w = "" ∧ ps = []) := by
  unfold build_where at h
  by_cases hemp : exprs.isEmpty
  · rw [if_pos hemp] at h
    injection h with h1
    have hw : w = "" := congrArg Prod.fst h1.symm
    have hps : ps = [] := congrArg Prod.snd h1.symm
    have hnil : exprs = [] := List.isEmpty_iff.mp hemp
    subst hnil hw hps
    exact ⟨rfl, ⟨[], rfl, rfl, by simp, by simp⟩, fun _ => ⟨rfl, rfl⟩⟩
  · rw [if_neg hemp] at h
    cases hfold : List.foldlM buildWhereStep ([], []) exprs with
    | error err =>
      rw [hfold] at h
      exact absurd h (by simp [Bind.bind, Except.bind])
    | ok acc =>
      rw [hfold] at h
      simp only [Bind.bind, Except.bind, pure, Except.pure] at h
      injection h with h1
      have hw : w = " WHERE " ++ joinSep " AND " acc.1 := (congrArg Prod.fst h1).symm
      have hps : ps = acc.2 := (congrArg Prod.snd h1).symm
      obtain ⟨frs, hfrs, hparts, hparams⟩ := buildWhere_fold exprs ([], []) acc hfold
      simp only [List.nil_append] at hparts hparams
      have hfragcount : ∀ f ∈ frs.flatten, countQ f.sql = f.params.length := by
        intro f hf
        obtain ⟨ws, hwsmem, hfmem⟩ := List.mem_flatten.mp hf
        obtain ⟨e, he⟩ := mapM_parse_mem hfrs ws hwsmem
        exact parse_filter_frag he f hfmem
      refine ⟨?_, ⟨frs, hfrs, by rw [hps, hparams], fun _ => by rw [hw, hparts], hfragcount⟩,
              fun hc => absurd (by rw [hc]; rfl : exprs.isEmpty = true) hemp⟩
      rw [hw, hps, hparams, countQ_append,
          (by rfl : countQ " WHERE " = 0), hparts,
          countQ_joinSep_zero (by rfl : countQ " AND " = 0)]
      simp only [List.map_map, List.length_flatten]
      have hmap : List.map (countQ ∘ partSql) frs
          = List.map (List.length ∘ fragParams) frs := by
        apply List.map_congr_left
        intro ws hwsmem
        obtain ⟨e, he⟩ := mapM_parse_mem hfrs ws hwsmem
        exact partSql_countQ (parse_filter_frag he)
      rw [hmap]
      omega

/-- Witness for C1 at the concrete expression list `["a==1", "b is null"]`. -/
theorem build_where_placeholder_alignment_witness :
    countQ (" WHERE a = ? AND b IS NULL") = [PyVal.int 1].length ∧
    (∃ frs : List (List SqlWhere),
        (["a==1", "b is null"] : List String).mapM parse_filter = .ok frs ∧
        [PyVal.int 1] = (frs.map fragParams).flatten ∧
        (¬ (["a==1", "b is null"] : List String).isEmpty →
          " WHERE a = ? AND b IS NULL" = " WHERE " ++ joinSep " AND " (frs.map partSql)) ∧
        ∀ f ∈ frs.flatten, countQ f.sql = f.params.length) ∧
    ((["a==1", "b is null"] : List String) = [] →
      " WHERE a = ? AND b IS NULL" = "" ∧ [PyVal.int 1] = ([] : List PyVal)) :=
  build_where_placeholder_alignment ["a==1", "b is null"] (" WHERE a = ? AND b IS NULL")
    [PyVal.int 1] rfl

/-- Claim C4: for every membership expression whose (literal) right-hand-side
list has more than `IN_CHUNK = 1000` values, `parse_filter` splits the list
into consecutive chunks of at most 1000 values, emits one `IN` fragment per
chunk with one placeholder per value, OR-combines the (at least two)
fragments into one parenthesized group, and concatenates the chunk parameter
tuples in chunk order, so the combined parameter sequence equals the original
list in order and the OR of the chunks is semantically equal to the
unchunked membership test (for any match predicate). -/
theorem parse_filter_membership_chunking
    (expr : String) (key : List Char) (op : String) (rhsRaw : List Char) (xs : PyList)
    (h0 : rx_null expr.data = Option.none)
    (h1 : rx_range expr.data = Option.none)
    (h2 : rx_range2 expr.data = Option.none)
    (h3 : rx_bin expr.data = some (key, op, rhsRaw))
    (h4 : lit rhsRaw = .list xs)
    (h5 : IN_CHUNK < xs.toList.length) :
    ∃ w : SqlWhere,
      parse_filter expr = .ok [w] ∧
      (chunksOf IN_CHUNK xs.toList).flatten = xs.toList ∧
      (∀ c ∈ chunksOf IN_CHUNK xs.toList,
        c.length ≤ IN_CHUNK ∧ countQ (inFrag (String.mk key) c).sql = c.length) ∧
      2 ≤ (chunksOf IN_CHUNK xs.toList).length ∧
      w.sql = "(" ++ joinSep " OR "
        (((chunksOf IN_CHUNK xs.toList).map (inFrag (String.mk key))).map (fun p => p.sql))
        ++ ")" ∧
      w.params = xs.toList ∧
      (∀ P : PyVal → Bool,
        ((chunksOf IN_CHUNK xs.toList).any (fun c => c.any P)) = xs.toList.any P) := by
  have hone : (1 : Nat) ≤ IN_CHUNK := by norm_num [IN_CHUNK]
  have htwo : 2 ≤ (chunksOf IN_CHUNK xs.toList).length := chunksOf_two_le hone h5
  have hkey0 : countQ (String.mk key) = 0 := countQ_key_zero (rx_bin_key_word h3)
  have hps : ((chunksOf IN_CHUNK xs.toList).map (inFrag (String.mk key))).map
      (fun p => p.params) = chunksOf IN_CHUNK xs.toList := by
    rw [List.map_map]
    have hfun : ((fun (p : SqlWhere) => p.params) ∘ inFrag (String.mk key)) = id := by
      funext c
      rfl
    rw [hfun, List.map_id]
  refine ⟨⟨"(" ++ joinSep " OR "
      (((chunksOf IN_CHUNK xs.toList).map (inFrag (String.mk key))).map (fun p => p.sql))
      ++ ")",
      (((chunksOf IN_CHUNK xs.toList).map (inFrag (String.mk key))).map
        (fun p => p.params)).flatten⟩, ?_, chunksOf_flatten hone _, ?_, htwo, rfl, ?_, ?_⟩
  · simp only [parse_filter]
    rw [h0, h1, h2, h3]
    dsimp only
    rw [h4]
    dsimp only
    simp only [inChunksResult]
    rw [if_neg (by
      rw [List.length_map]
      omega)]
  · intro c hc
    exact ⟨chunksOf_mem_length hc, inFrag_countQ hkey0 c⟩
  · rw [hps]
    exact chunksOf_flatten hone _
  · intro P
    rw [← List.any_flatten, chunksOf_flatten hone]


/-- Character block `1,1,...,1,` with `n` repetitions, for the C4 witness. -/
def c4R (n : Nat) : List Char := (List.replicate n ['1', ',']).flatten

/-- The raw right-hand-side text `[1,1,...,1,]` with `n` values. -/
def c4rhsOf (n : Nat) : List Char := '[' :: (c4R n ++ [']'])

/-- The membership expression `k==[1,...,1,]` with `n` values. -/
def c4exprOf (n : Nat) : String := "k==" ++ String.mk (c4rhsOf n)

theorem c4R_succ (n : Nat) : c4R (n + 1) = '1' :: ',' :: c4R n := by
  simp [c4R, List.replicate_succ, List.flatten_cons]

theorem c4R_length (n : Nat) : (c4R n).length = 2 * n := by
  induction n with
  | zero => rfl
  | succ m ih => rw [c4R_succ]; simp [ih]; omega

theorem c4R_mem {n : Nat} {c : Char} (h : c ∈ c4R n) : c = '1' ∨ c = ',' := by
  induction n with
  | zero => simp [c4R] at h
  | succ m ih =>
    rw [c4R_succ] at h
    simp only [List.mem_cons] at h
    rcases h with h | h | h
    · exact Or.inl h
    · exact Or.inr h
    · exact ih h

theorem c4rhs_mem {n : Nat} {c : Char} (h : c ∈ c4rhsOf n) :
    c = '[' ∨ c = '1' ∨ c = ',' ∨ c = ']' := by
  simp only [c4rhsOf, List.mem_cons, List.mem_append, List.mem_singleton,
    List.not_mem_nil, or_false] at h
  rcases h with h | h | h
  · exact Or.inl h
  · rcases c4R_mem h with h | h
    · exact Or.inr (Or.inl h)
    · exact Or.inr (Or.inr (Or.inl h))
  · exact Or.inr (Or.inr (Or.inr h))

theorem c4rhs_no_newline (n : Nat) : (c4rhsOf n).contains '\n' = false := by
  simp only [List.contains_eq_any_beq, List.any_eq_false]
  intro c hc hbeq
  have : ('\n' : Char) = c := by exact beq_iff_eq.mp hbeq
  subst this
  rcases c4rhs_mem hc with h | h | h | h <;> simp at h

theorem c4rhs_dropWhile_ws (n : Nat) :
    (c4rhsOf n).dropWhile isPySpace = c4rhsOf n := by
  rw [c4rhsOf, List.dropWhile_cons]
  simp [isPySpace]

theorem c4rhs_strip (n : Nat) : pyStrip (c4rhsOf n) = c4rhsOf n := by
  unfold pyStrip
  rw [c4rhs_dropWhile_ws]
  have hrev : (c4rhsOf n).reverse = ']' :: ((c4R n).reverse ++ ['[']) := by
    simp [c4rhsOf, List.reverse_cons, List.reverse_append]
  rw [hrev, List.dropWhile_cons, if_neg (by simp [isPySpace])]
  rw [← hrev, List.reverse_reverse]

theorem c4_rx_null (n : Nat) : rx_null (c4exprOf n).data = Option.none := by
  have hdata : (c4exprOf n).data = 'k' :: '=' :: '=' :: c4rhsOf n := by
    rw [c4exprOf, String.data_append]
    rfl
  rw [hdata]
  rfl

theorem c4_rx_range (n : Nat) : rx_range (c4exprOf n).data = Option.none := by
  have hdata : (c4exprOf n).data = 'k' :: '=' :: '=' :: c4rhsOf n := by
    rw [c4exprOf, String.data_append]
    rfl
  rw [hdata]
  rfl

theorem c4_rx_range2 (n : Nat) : rx_range2 (c4exprOf n).data = Option.none := by
  have hdata : (c4exprOf n).data = 'k' :: '=' :: '=' :: c4rhsOf n := by
    rw [c4exprOf, String.data_append]
    rfl
  rw [hdata]
  rfl

theorem c4_lazyCap (n : Nat) : lazyCapTail false (c4rhsOf n) = some (c4rhsOf n) := by
  have h1 : pyStrip (c4rhsOf n) = c4rhsOf n := c4rhs_strip n
  have h2 : (c4rhsOf n).contains '\n' = false := c4rhs_no_newline n
  simp only [lazyCapTail, h1, h2]
  rw [c4rhsOf]
  simp [List.isEmpty]

theorem c4_rx_bin (n : Nat) :
    rx_bin (c4exprOf n).data = some (['k'], "==", c4rhsOf n) := by
  have hdata : (c4exprOf n).data = 'k' :: '=' :: '=' :: c4rhsOf n := by
    rw [c4exprOf, String.data_append]
    rfl
  rw [hdata]
  show (match lazyCapTail false (c4rhsOf n) with
        | some rhs => some (['k'], "==", rhs)
        | Option.none => Option.none) = some (['k'], "==", c4rhsOf n)
  rw [c4_lazyCap]

theorem c4_items (n : Nat) : ∀ fuel, n + 3 ≤ fuel →
    litParseItems fuel ']' (c4R n ++ [']'])
      = some (List.replicate n (PyVal.int 1), decide (1 ≤ n), []) := by
  induction n with
  | zero =>
    intro fuel hf
    obtain ⟨g, rfl⟩ : ∃ g, fuel = g + 1 := ⟨fuel - 1, by omega⟩
    show litParseItems (g + 1) ']' (c4R 0 ++ [']']) = some ([], false, [])
    rfl
  | succ m ih =>
    intro fuel hf
    obtain ⟨g, rfl⟩ : ∃ g, fuel = g + 3 := ⟨fuel - 3, by omega⟩
    rw [c4R_succ]
    have hstep : litParseItems (g + 3) ']' ('1' :: ',' :: (c4R m ++ [']']))
        = (match litParseItems (g + 2) ']' (c4R m ++ [']']) with
           | some (items, trailing, rest2) =>
             some (PyVal.int 1 :: items, (if items.isEmpty then true else trailing), rest2)
           | Option.none => Option.none) := rfl
    rw [List.cons_append, List.cons_append, hstep, ih (g + 2) (by omega)]
    cases m with
    | zero => rfl
    | succ m' => simp [List.replicate_succ]

theorem c4_lit (n : Nat) (hn : 1 ≤ n) :
    lit (c4rhsOf n) = PyVal.list (PyList.ofList (List.replicate n (PyVal.int 1))) := by
  have hlen : (c4rhsOf n).length = 2 * n + 2 := by
    simp [c4rhsOf, c4R_length]
  have h1 : litParseVal (2 * n + 2 + 1) (c4rhsOf n)
      = (match litParseItems (2 * n + 2) ']' (c4R n ++ [']']) with
         | some (items, _, rest) => some (.list (PyList.ofList items), rest)
         | Option.none => Option.none) := by
    show litParseVal (2 * n + 2 + 1) ('[' :: (c4R n ++ [']'])) = _
    rfl
  have heval : litEval (c4rhsOf n)
      = some (.list (PyList.ofList (List.replicate n (PyVal.int 1)))) := by
    unfold litEval
    rw [hlen, h1, c4_items n (2 * n + 2) (by omega)]
    rfl
  simp only [lit, c4rhs_strip, heval]

/-- The 1001-value membership list used by the C4 witness. -/
def c4xs : PyList := PyList.ofList (List.replicate 1001 (PyVal.int 1))

/-- Witness for C4: all hypotheses hold and the conclusion follows at the
concrete 1001-value membership expression `k==[1,...,1,]`. -/
theorem parse_filter_membership_chunking_witness :
    (rx_null (c4exprOf 1001).data = Option.none ∧
     rx_range (c4exprOf 1001).data = Option.none ∧
     rx_range2 (c4exprOf 1001).data = Option.none ∧
     rx_bin (c4exprOf 1001).data = some (['k'], "==", c4rhsOf 1001) ∧
     lit (c4rhsOf 1001) = PyVal.list c4xs ∧
     IN_CHUNK < c4xs.toList.length) ∧
    (∃ w : SqlWhere,
      parse_filter (c4exprOf 1001) = .ok [w] ∧
      (chunksOf IN_CHUNK c4xs.toList).flatten = c4xs.toList ∧
      (∀ c ∈ chunksOf IN_CHUNK c4xs.toList,
        c.length ≤ IN_CHUNK ∧ countQ (inFrag (String.mk ['k']) c).sql = c.length) ∧
      2 ≤ (chunksOf IN_CHUNK c4xs.toList).length ∧
      w.sql = "(" ++ joinSep " OR "
        (((chunksOf IN_CHUNK c4xs.toList).map (inFrag (String.mk ['k']))).map
          (fun p => p.sql)) ++ ")" ∧
      w.params = c4xs.toList ∧
      (∀ P : PyVal → Bool,
        ((chunksOf IN_CHUNK c4xs.toList).any (fun c => c.any P))
          = c4xs.toList.any P)) :=
  have hlen : IN_CHUNK < c4xs.toList.length := by
    rw [c4xs, PyList.toList_ofList]
    simp [IN_CHUNK]
  ⟨⟨c4_rx_null 1001, c4_rx_range 1001, c4_rx_range2 1001, c4_rx_bin 1001,
    c4_lit 1001 (by omega), hlen⟩,
    parse_filter_membership_chunking (c4exprOf 1001) ['k'] "==" (c4rhsOf 1001) c4xs
      (c4_rx_null 1001) (c4_rx_range 1001) (c4_rx_range2 1001) (c4_rx_bin 1001)
      (c4_lit 1001 (by omega)) hlen⟩

/-!
Embedding of `filters_to_exprs` and `_looks_like_expr` of `filters.py`.
The filter map is an ordered association list (Python dicts preserve
insertion order).  The three passes of the source (the `$raw` pass, the
legacy `__expr__` pass, the normalized pass) are modelled separately and
concatenated in source order.
-/

/-- Python `s.startswith(t)` on the modelled character lists. -/
def strStartsWith (s t : String) : Bool :=
  t.data.isPrefixOf s.data

/-- Python `s.lower()` (ASCII), character by character. -/
def strToLower (s : String) : String :=
  String.mk (s.data.map Char.toLower)

/-- Python `s[:-n]` (drop the last `n` characters). -/
def strDropRight (s : String) (n : Nat) : String :=
  String.mk (s.data.take (s.data.length - n))

/-- The token list of `_looks_like_expr`. -/
def lookTokens : List String :=
  ["==", " in ", " between ", ">=", "<=", ">", "<", " is null", " is not null"]

/-- Model of `_looks_like_expr`: lowercase, then check token containment. -/
def looksLikeExpr (s : String) : Bool :=
  lookTokens.any (fun tok => containsSeq tok.data (strToLower s).data)

/-- The operator-suffix candidates tried, in order, on filter keys. -/
def opSuffixes : List String := [">=", "<=", ">", "<", "=="]

/-- Python `k.endswith(suf)`. -/
def strEndsWith (s suf : String) : Bool :=
  suf.data.isSuffixOf s.data

/-- Python `[x.strip() for x in s.split(",") if x.strip()]`. -/
def pySplitStrip (s : String) : List String :=
  ((s.data.splitOn ',').map pyStrip).filterMap
    (fun t => if t.isEmpty then Option.none else some (String.mk t))

/-- The strings of a Python list/tuple, in order
(`[x for x in val if isinstance(x, str)]`). -/
def strOnly (xs : PyList) : List String :=
  xs.toList.filterMap (fun x => match x with | .str s => some s | _ => Option.none)

/-- Number of entries of a `PyDict`. -/
def PyDict.length : PyDict → Nat
  | .nil => 0
  | .cons _ _ tl => 1 + tl.length

/-- The keys of a `PyDict`, in order. -/
def PyDict.keys : PyDict → List String
  | .nil => []
  | .cons k _ tl => k :: tl.keys

/-- Python sequence unpacking `lo, hi = v` into exactly two values: succeeds
on two-element lists/tuples/sets, two-character strings and two-key dicts
(which unpack to their keys); raises (`Except.error`) otherwise. -/
def unpack2 (v : PyVal) : Except String (PyVal × PyVal) :=
  match v with
  | .list xs | .tuple xs | .set xs =>
    (match xs.toList with
     | [a, b] => .ok (a, b)
     | _ => .error ("ValueError: unpacking requires exactly 2 values"))
  | .str s =>
    (match s.data with
     | [a, b] => .ok (.str (String.mk [a]), .str (String.mk [b]))
     | _ => .error ("ValueError: unpacking requires exactly 2 values"))
  | .dict d =>
    (match d.keys with
     | [a, b] => .ok (.str a, .str b)
     | _ => .error ("ValueError: unpacking requires exactly 2 values"))
  | _ => .error ("TypeError: cannot unpack non-iterable value")

/-- The contribution of a raw value (string kept verbatim, list/tuple
filtered to its strings); any other type raises, with `tag` naming the
offending key, mirroring the `raise ValueError` branches of the source. -/
def rawVal (v : PyVal) (tag : String) : Except String (List String) :=
  match v with
  | .str s => .ok [s]
  | .list xs => .ok (strOnly xs)
  | .tuple xs => .ok (strOnly xs)
  | _ => .error tag

/-- The `$raw` pass of `filters_to_exprs`. -/
def rawPass (filters : List (String × PyVal)) : Except String (List String) :=
  match List.lookup ("$raw") filters with
  | some v => rawVal v ("Bad $raw value: " ++ pyRepr v)
  | Option.none => .ok []

/-- The legacy `__expr__N` pass of `filters_to_exprs`. -/
def legacyPass : List (String × PyVal) → Except String (List String)
  | [] => .ok []
  | (k, v) :: tl =>
    if strStartsWith k ("__expr__") then do
      let e ← rawVal v ("Bad raw expr for " ++ k ++ ": " ++ pyRepr v)
      let rest ← legacyPass tl
      .ok (e ++ rest)
    else legacyPass tl

/-- The normalized handling of one non-raw filter entry, following the
precedence order of the source: `has_mask` shorthand, operator-suffixed key,
pre-baked mini-DSL string, comma-separated shorthand, list/tuple/set
membership, dict range, scalar equality. -/
def normEntry (k : String) (v : PyVal) : Except String (List String) :=
  if k = "$raw" || strStartsWith k ("__expr__") then .ok []
  else if k = "has_mask" || k = "has_masks" then
    .ok [if pyTruthy v then "mask_path is not null" else "mask_path is null"]
  else
    match opSuffixes.find? (fun c => strEndsWith k c) with
    | some op => .ok [(strDropRight k op.data.length) ++ op ++ pyStr v]
    | Option.none =>
      match v with
      | .str s =>
        if looksLikeExpr s then .ok [s]
        else if containsSeq [','] s.data && ¬ strStartsWith (String.mk (pyStrip s.data)) ("[") then
          .ok [k ++ "==" ++ pyStr (.list (PyList.ofList ((pySplitStrip s).map PyVal.str)))]
        else .ok [k ++ "==" ++ pyStr v]
      | .list xs => .ok [k ++ "==" ++ pyStr (.list xs)]
      | .tuple xs => .ok [k ++ "==" ++ pyStr (.list xs)]
      | .set xs => .ok [k ++ "==" ++ pyStr (.list xs)]
      | .dict d =>
        (match d.lookup ("in") with
         | some w => do
             let (lo, hi) ← unpack2 w
             .ok [k ++ " in [" ++ pyStr lo ++ "," ++ pyStr hi ++ "]"]
         | Option.none =>
           match d.lookup ("between") with
           | some w => do
               let (lo, hi) ← unpack2 w
               .ok [k ++ " between [" ++ pyStr lo ++ "," ++ pyStr hi ++ "]"]
           | Option.none => .ok [k ++ "==" ++ pyStr v])
      | _ => .ok [k ++ "==" ++ pyStr v]

/-- The normalized pass of `filters_to_exprs` over all entries. -/
def normPass : List (String × PyVal) → Except String (List String)
  | [] => .ok []
  | (k, v) :: tl => do
    let e ← normEntry k v
    let rest ← normPass tl
    .ok (e ++ rest)

/-- Model of `filters_to_exprs`: empty input yields no expressions; otherwise
the `$raw` pass, the legacy pass, and the normalized pass contribute in
order. -/
def filters_to_exprs (filters : List (String × PyVal)) : Except String (List String) :=
  if filters.isEmpty then .ok []
  else do
    let raws ← rawPass filters
    let legacy ← legacyPass filters
    let normals ← normPass filters
    .ok (raws ++ legacy ++ normals)

example : filters_to_exprs [("species", .str "barley,hairy vetch")]
    = .ok ["species==['barley', 'hairy vetch']"] := rfl
example : filters_to_exprs [("has_mask", .bool true)] = .ok ["mask_path is not null"] := rfl
example : filters_to_exprs [("score>=", .int 5)] = .ok ["score>=5"] := rfl
example : filters_to_exprs [("area", .dict (.cons "in" (.list (.cons (.int 1) (.cons (.int 5) .nil))) .nil))]
    = .ok ["area in [1,5]"] := rfl
example : filters_to_exprs [("ids", .list (.cons (.int 1) (.cons (.int 2) .nil)))]
    = .ok ["ids==[1, 2]"] := rfl
example : filters_to_exprs [("$raw", .str "x==1"), ("state", .str "NC")]
    = .ok ["x==1", "state==NC"] := rfl
example : filters_to_exprs [("$raw", .int 0)] = .error "Bad $raw value: 0" := rfl
example : filters_to_exprs [("cond", .str "area >= 3")] = .ok ["area >= 3"] := rfl

/-- Claim C6 counterexample: `filters_to_exprs` raises (`ValueError`) when the
reserved key `$raw` holds a value that is neither a string nor a list/tuple,
refuting "never raises for values of any type". -/
theorem filters_to_exprs_raises_on_bad_raw :
    filters_to_exprs [("$raw", PyVal.int 0)] = .error ("Bad $raw value: 0") := rfl

/-- Well-formedness of a raw-key value: string, list or tuple. -/
def rawOkB : PyVal → Bool
  | .str _ | .list _ | .tuple _ => true
  | _ => false

/-- Well-formedness for unpacking into exactly two values. -/
def unpackOkB : PyVal → Bool
  | .list xs | .tuple xs | .set xs => xs.toList.length == 2
  | .str s => s.data.length == 2
  | .dict d => d.keys.length == 2
  | _ => false

/-- Well-formedness of one filter entry: raw keys carry raw-ok values, and a
dict value's selected `in`/`between` entry unpacks to two values. -/
def entryOkB (k : String) (v : PyVal) : Bool :=
  (!(k == "$raw" || strStartsWith k ("__expr__")) || rawOkB v) &&
  (match v with
   | .dict d =>
     (match d.lookup ("in") with
      | some w => unpackOkB w
      | Option.none =>
        (match d.lookup ("between") with
         | some w => unpackOkB w
         | Option.none => true))
   | _ => true)

/-- Well-formedness of a whole filter map. -/
def filtersOkB (filters : List (String × PyVal)) : Bool :=
  filters.all (fun kv => entryOkB kv.1 kv.2)

theorem unpack2_ok {w : PyVal} (h : unpackOkB w = true) :
    ∃ p, unpack2 w = .ok p := by
  cases w with
  | list xs | tuple xs | set xs =>
    simp only [unpackOkB, beq_iff_eq] at h
    obtain ⟨a, b, hab⟩ := List.length_eq_two.mp h
    exact ⟨(a, b), by simp [unpack2, hab]⟩
  | str s =>
    simp only [unpackOkB, beq_iff_eq] at h
    obtain ⟨a, b, hab⟩ := List.length_eq_two.mp h
    exact ⟨(.str (String.mk [a]), .str (String.mk [b])), by simp [unpack2, hab]⟩
  | dict d =>
    simp only [unpackOkB, beq_iff_eq] at h
    obtain ⟨a, b, hab⟩ := List.length_eq_two.mp h
    exact ⟨(.str a, .str b), by simp [unpack2, hab]⟩
  | int n => simp [unpackOkB] at h
  | bool b => simp [unpackOkB] at h
  | none => simp [unpackOkB] at h

theorem rawVal_ok {v : PyVal} {tag : String} (h : rawOkB v = true) :
    ∃ l, rawVal v tag = .ok l := by
  cases v <;> simp [rawOkB] at h <;> exact ⟨_, rfl⟩

theorem rawPass_ok {filters : List (String × PyVal)}
    (h : filtersOkB filters = true) : ∃ l, rawPass filters = .ok l := by
  unfold rawPass
  cases hl : List.lookup ("$raw") filters with
  | none => exact ⟨[], rfl⟩
  | some v =>
    have hmem : ("$raw", v) ∈ filters := by
      obtain ⟨l₁, l₂, heq, -⟩ := List.lookup_eq_some_iff.mp hl
      rw [heq]
      simp
    have hentry := List.all_eq_true.mp h ("$raw", v) hmem
    simp only [entryOkB, Bool.and_eq_true, Bool.or_eq_true] at hentry
    have hraw : rawOkB v = true := by
      rcases hentry.1 with hc | hc
      · simp at hc
      · exact hc
    exact rawVal_ok hraw

theorem legacyPass_ok {filters : List (String × PyVal)}
    (h : filtersOkB filters = true) : ∃ l, legacyPass filters = .ok l := by
  induction filters with
  | nil => exact ⟨[], rfl⟩
  | cons kv tl ih =>
    obtain ⟨k, v⟩ := kv
    have htl : filtersOkB tl = true := by
      simp only [filtersOkB, List.all_cons, Bool.and_eq_true] at h
      exact h.2
    obtain ⟨rest, hrest⟩ := ih htl
    unfold legacyPass
    split
    · have hentry := List.all_eq_true.mp h (k, v) (by simp)
      simp only [entryOkB, Bool.and_eq_true, Bool.or_eq_true] at hentry
      have hraw : rawOkB v = true := by
        rcases hentry.1 with hc | hc
        · simp only [Bool.not_eq_true', Bool.or_eq_false_iff] at hc
          rename_i hstart
          rw [hc.2] at hstart
          exact absurd hstart (by simp)
        · exact hc
      obtain ⟨e, he⟩ := @rawVal_ok v ("Bad raw expr for " ++ k ++ ": " ++ pyRepr v) hraw
      exact ⟨e ++ rest, by rw [he, hrest]; rfl⟩
    · exact ⟨rest, hrest⟩

theorem normEntry_ok {k : String} {v : PyVal} (h : entryOkB k v = true) :
    ∃ l, normEntry k v = .ok l := by
  unfold normEntry
  split
  · exact ⟨_, rfl⟩
  split
  · exact ⟨_, rfl⟩
  split
  · exact ⟨_, rfl⟩
  cases v with
  | str s =>
    dsimp only
    split
    · exact ⟨_, rfl⟩
    split
    · exact ⟨_, rfl⟩
    · exact ⟨_, rfl⟩
  | dict d =>
    simp only [entryOkB, Bool.and_eq_true] at h
    have h2 := h.2
    dsimp only
    cases hin : d.lookup ("in") with
    | some w =>
      rw [hin] at h2
      dsimp only at h2
      obtain ⟨⟨lo, hi⟩, hp⟩ := unpack2_ok h2
      dsimp only
      rw [hp]
      exact ⟨_, rfl⟩
    | none =>
      rw [hin] at h2
      dsimp only at h2
      dsimp only
      cases hbw : d.lookup ("between") with
      | some w =>
        rw [hbw] at h2
        dsimp only at h2
        obtain ⟨⟨lo, hi⟩, hp⟩ := unpack2_ok h2
        dsimp only
        rw [hp]
        exact ⟨_, rfl⟩
      | none => exact ⟨_, rfl⟩
  | int n => exact ⟨_, rfl⟩
  | bool b => exact ⟨_, rfl⟩
  | none => exact ⟨_, rfl⟩
  | list xs => exact ⟨_, rfl⟩
  | tuple xs => exact ⟨_, rfl⟩
  | set xs => exact ⟨_, rfl⟩

theorem normPass_ok {filters : List (String × PyVal)}
    (h : filtersOkB filters = true) : ∃ l, normPass filters = .ok l := by
  induction filters with
  | nil => exact ⟨[], rfl⟩
  | cons kv tl ih =>
    obtain ⟨k, v⟩ := kv
    simp only [filtersOkB, List.all_cons, Bool.and_eq_true] at h
    obtain ⟨rest, hrest⟩ := ih h.2
    obtain ⟨e, he⟩ := normEntry_ok h.1
    exact ⟨e ++ rest, by unfold normPass; rw [he, hrest]; rfl⟩

/-- Claim C6 (amended): `filters_to_exprs` returns a list of expression
strings without raising for every mix of scalars, lists/tuples/sets,
operator-suffixed keys, comma-separated strings, and range dicts — provided
raw-key (`$raw`/`__expr__`) values are strings, lists or tuples, and a dict
value's selected `in`/`between` entry unpacks to exactly two values; outside
that proviso it raises (see the counterexample). -/
theorem filters_to_exprs_total_on_wf (filters : List (String × PyVal))
    (h : filtersOkB filters = true) :
    ∃ exprs, filters_to_exprs filters = .ok exprs := by
  unfold filters_to_exprs
  split
  · exact ⟨[], rfl⟩
  obtain ⟨r, hr⟩ := rawPass_ok h
  obtain ⟨e, he⟩ := legacyPass_ok h
  obtain ⟨nm, hn⟩ := normPass_ok h
  exact ⟨r ++ e ++ nm, by rw [hr, he, hn]; rfl⟩

/-- Witness for C6 at a mixed concrete filter map exercising a raw
expression, the mask shorthand, an operator-suffixed key, a comma list, a
value list, a range dict and a scalar. -/
theorem filters_to_exprs_total_on_wf_witness :
    filtersOkB [("$raw", .str "x==1"), ("has_mask", .bool true),
      ("score>=", .int 3), ("species", .str "barley,vetch"),
      ("ids", .list (.cons (.int 1) (.cons (.int 2) .nil))),
      ("area", .dict (.cons "between" (.list (.cons (.int 1) (.cons (.int 5) .nil))) .nil)),
      ("state", .str "NC")] = true ∧
    ∃ exprs, filters_to_exprs [("$raw", .str "x==1"), ("has_mask", .bool true),
      ("score>=", .int 3), ("species", .str "barley,vetch"),
      ("ids", .list (.cons (.int 1) (.cons (.int 2) .nil))),
      ("area", .dict (.cons "between" (.list (.cons (.int 1) (.cons (.int 5) .nil))) .nil)),
      ("state", .str "NC")] = .ok exprs :=
  ⟨rfl, filters_to_exprs_total_on_wf _ rfl⟩

/-!
Embedding of `QueryBuilder.filter` of `agir_db.py` (value-level semantics of
the merge; the object-identity aspect relevant to spec freezing is modelled
separately below).
-/

/-- The dedup key of the source: `x.lower() if isinstance(x, str) else x`. -/
def ciKey (x : PyVal) : PyVal :=
  match x with
  | .str s => .str (strToLower s)
  | _ => x

/-- Python list coercion used by the merge: a list spreads into its
elements, anything else is a one-element list (`[existing]` promotion, and
`extend` vs `append` on the new value). -/
def pyListify (x : PyVal) : List PyVal :=
  match x with
  | .list xs => xs.toList
  | _ => [x]

/-- The dedup loop of `QueryBuilder.filter`: walk the merged values keeping
the first occurrence of each dedup key; adding an unhashable key to the
`seen` set raises `TypeError` (modelled as `Except.error`). -/
def dedupSeen (seen : List PyVal) : List PyVal → Except String (List PyVal)
  | [] => .ok []
  | x :: tl =>
    let key := ciKey x
    if pyHashable key = false then .error ("TypeError: unhashable type")
    else if seen.any (fun s => pyEqb key s) then dedupSeen seen tl
    else do
      let rest ← dedupSeen (key :: seen) tl
      .ok (x :: rest)

/-- The merge of an incoming value `v` onto an existing value for the same
key: promote scalar to list, append/extend, dedup preserving order, then
store `merged if len(merged) > 1 else merged[0]` — a list for two or more
survivors, the bare element for one, and an `IndexError` (modelled as
`Except.error`) for the empty merge of two empty lists. -/
def mergeFilterValue (existing v : PyVal) : Except String PyVal := do
  let appended := pyListify existing ++ pyListify v
  let merged ← dedupSeen [] appended
  match merged with
  | [] => .error ("IndexError: list index out of range")
  | [x] => .ok x
  | xs => .ok (.list (PyList.ofList xs))

/-- One `k = v` step of `QueryBuilder.filter`: merge onto an existing entry
(in place, preserving the key's position) or append a new entry. -/
def builderFilter (filters : List (String × PyVal)) (k : String) (v : PyVal) :
    Except String (List (String × PyVal)) :=
  match List.lookup k filters with
  | some existing => do
      let m ← mergeFilterValue existing v
      .ok (filters.map (fun kv => if kv.1 = k then (k, m) else kv))
  | Option.none => .ok (filters ++ [(k, v)])

/-- Modelled from the claim's words (refinement reference): first-seen-order
case-insensitive deduplication — keep each element whose dedup key has not
appeared before, in input order.  Fuel-based for kernel reducibility. -/
def specDedupCIAux : Nat → List PyVal → List PyVal
  | _, [] => []
  | 0, _ :: _ => []
  | f + 1, x :: tl =>
    x :: specDedupCIAux f (tl.filter (fun y => !(pyEqb (ciKey y) (ciKey x))))

/-- First-seen-order case-insensitive dedup with sufficient fuel. -/
def specDedupCI (l : List PyVal) : List PyVal :=
  specDedupCIAux l.length l

theorem specDedupCIAux_fuel :
    ∀ (f₁ f₂ : Nat) (l : List PyVal), l.length ≤ f₁ → l.length ≤ f₂ →
      specDedupCIAux f₁ l = specDedupCIAux f₂ l := by
  intro f₁
  induction f₁ with
  | zero =>
    intro f₂ l h1 h2
    cases l with
    | nil => cases f₂ <;> rfl
    | cons x tl => simp at h1
  | succ g ih =>
    intro f₂ l h1 h2
    cases l with
    | nil => cases f₂ <;> rfl
    | cons x tl =>
      obtain ⟨g₂, rfl⟩ : ∃ g₂, f₂ = g₂ + 1 := ⟨f₂ - 1, by simp at h2; omega⟩
      simp only [specDedupCIAux, List.cons.injEq, true_and]
      have hlen : (tl.filter (fun y => !(pyEqb (ciKey y) (ciKey x)))).length ≤ tl.length :=
        List.length_filter_le _ _
      simp only [List.length_cons] at h1 h2
      exact ih g₂ _ (by omega) (by omega)

theorem specDedupCI_cons (x : PyVal) (tl : List PyVal) :
    specDedupCI (x :: tl)
      = x :: specDedupCI (tl.filter (fun y => !(pyEqb (ciKey y) (ciKey x)))) := by
  show specDedupCIAux (tl.length + 1) (x :: tl) = _
  simp only [specDedupCIAux, List.cons.injEq, true_and]
  exact specDedupCIAux_fuel tl.length _ _ (List.length_filter_le _ _) (Nat.le_refl _)

theorem specDedupCIAux_sublist : ∀ (f : Nat) (l : List PyVal),
    (specDedupCIAux f l).Sublist l := by
  intro f
  induction f with
  | zero =>
    intro l
    cases l <;> simp [specDedupCIAux]
  | succ g ih =>
    intro l
    cases l with
    | nil => simp [specDedupCIAux]
    | cons x tl =>
      simp only [specDedupCIAux]
      exact (ih _).trans (List.filter_sublist tl) |>.cons₂ x

theorem specDedupCI_sublist (l : List PyVal) : (specDedupCI l).Sublist l :=
  specDedupCIAux_sublist _ _

theorem specDedupCIAux_pairwise : ∀ (f : Nat) (l : List PyVal),
    List.Pairwise (fun a b => pyEqb (ciKey b) (ciKey a) = false) (specDedupCIAux f l) := by
  intro f
  induction f with
  | zero =>
    intro l
    cases l <;> simp [specDedupCIAux]
  | succ g ih =>
    intro l
    cases l with
    | nil => simp [specDedupCIAux]
    | cons x tl =>
      simp only [specDedupCIAux]
      refine List.Pairwise.cons ?_ (ih _)
      intro b hb
      have hmem : b ∈ tl.filter (fun y => !(pyEqb (ciKey y) (ciKey x))) :=
        (specDedupCIAux_sublist g _).mem hb
      have := List.of_mem_filter hmem
      simpa using this

theorem specDedupCI_pairwise (l : List PyVal) :
    List.Pairwise (fun a b => pyEqb (ciKey b) (ciKey a) = false) (specDedupCI l) :=
  specDedupCIAux_pairwise _ _

mutual

theorem pyEqb_refl : ∀ (a : PyVal), pyEqb a a = true
  | .str s => by simp [pyEqb]
  | .int n => by simp [pyEqb]
  | .bool b => by simp [pyEqb]
  | .none => by simp [pyEqb]
  | .list xs => by simp [pyEqb, pyEqbL_refl xs]
  | .tuple xs => by simp [pyEqb, pyEqbL_refl xs]
  | .set xs => by simp [pyEqb, pyEqbL_refl xs]
  | .dict d => by simp [pyEqb, pyEqbD_refl d]

theorem pyEqbL_refl : ∀ (l : PyList), pyEqbL l l = true
  | .nil => by simp [pyEqbL]
  | .cons v tl => by simp [pyEqbL, pyEqb_refl v, pyEqbL_refl tl]

theorem pyEqbD_refl : ∀ (d : PyDict), pyEqbD d d = true
  | .nil => by simp [pyEqbD]
  | .cons k v tl => by simp [pyEqbD, pyEqb_refl v, pyEqbD_refl tl]

end

theorem specDedupCIAux_cover : ∀ (f : Nat) (l : List PyVal), l.length ≤ f →
    ∀ x ∈ l, ∃ y ∈ specDedupCIAux f l, pyEqb (ciKey x) (ciKey y) = true := by
  intro f
  induction f with
  | zero =>
    intro l hl x hx
    cases l with
    | nil => simp at hx
    | cons a tl => simp at hl
  | succ g ih =>
    intro l hl x hx
    cases l with
    | nil => simp at hx
    | cons a tl =>
      simp only [specDedupCIAux]
      rcases List.mem_cons.mp hx with hx | hx
      · subst hx
        exact ⟨x, by simp, pyEqb_refl _⟩
      · by_cases hk : pyEqb (ciKey x) (ciKey a) = true
        · exact ⟨a, by simp, hk⟩
        · have hxf : x ∈ tl.filter (fun y => !(pyEqb (ciKey y) (ciKey a))) :=
            List.mem_filter.mpr ⟨hx, by simpa using hk⟩
          simp only [List.length_cons] at hl
          obtain ⟨y, hy, hxy⟩ := ih _ (le_trans (List.length_filter_le _ _) (by omega)) x hxf
          exact ⟨y, List.mem_cons_of_mem a hy, hxy⟩

theorem specDedupCI_cover (l : List PyVal) :
    ∀ x ∈ l, ∃ y ∈ specDedupCI l, pyEqb (ciKey x) (ciKey y) = true :=
  specDedupCIAux_cover _ _ (Nat.le_refl _)

theorem dedupSeen_spec :
    ∀ (l : List PyVal) (seen : List PyVal),
      (∀ x ∈ l, pyHashable (ciKey x) = true) →
      dedupSeen seen l
        = .ok (specDedupCI (l.filter (fun y => !(seen.any (fun s => pyEqb (ciKey y) s))))) := by
  intro l
  induction l with
  | nil => intro seen _; rfl
  | cons x tl ih =>
    intro seen hh
    have hx : pyHashable (ciKey x) = true := hh x (by simp)
    unfold dedupSeen
    rw [if_neg (by simp [hx])]
    by_cases hseen : seen.any (fun s => pyEqb (ciKey x) s) = true
    · rw [if_pos hseen, ih seen (fun y hy => hh y (by simp [hy]))]
      congr 1
      congr 1
      rw [List.filter_cons]
      rw [if_neg (by simp [hseen])]
    · rw [if_neg hseen]
      rw [ih (ciKey x :: seen) (fun y hy => hh y (by simp [hy]))]
      have hfil : tl.filter (fun y => !((ciKey x :: seen).any (fun s => pyEqb (ciKey y) s)))
          = (tl.filter (fun y => !(seen.any (fun s => pyEqb (ciKey y) s)))).filter
              (fun y => !(pyEqb (ciKey y) (ciKey x))) := by
        rw [List.filter_filter]
        apply List.filter_congr
        intro a _
        simp [List.any_cons, Bool.not_or, Bool.and_comm]
      have hcons : (x :: tl).filter (fun y => !(seen.any (fun s => pyEqb (ciKey y) s)))
          = x :: tl.filter (fun y => !(seen.any (fun s => pyEqb (ciKey y) s))) := by
        rw [List.filter_cons, if_pos (by simp [hseen])]
      rw [hfil, hcons, specDedupCI_cons]
      rfl

/-- Claim C7: merging a later filter value onto an existing one via
`QueryBuilder.filter` promotes the existing scalar to a list, appends the new
value(s), and deduplicates case-insensitively for strings while preserving
first-seen order (the result listifies to the first-seen-order dedup of the
concatenated values; a single survivor is stored as a scalar, more survivors
as a list; the dedup is an order-preserving sublist without repeated keys
that covers every input value); in particular `filter(a=1)` then
`filter(a=2)` yields `a=[1,2]`, and `filter(a="X")` then `filter(a="x")`
yields the single value `"X"`.  The degenerate merge of two empty lists is
outside the merge behaviour the claim describes: there the source raises
`IndexError` at `merged[0]`, which the model reproduces (second conjunct and
concrete instance). -/
theorem query_builder_filter_merge :
    (∀ existing v : PyVal,
      pyListify existing ++ pyListify v ≠ [] →
      (∀ x ∈ pyListify existing ++ pyListify v, pyHashable (ciKey x) = true) →
      ∃ out, mergeFilterValue existing v = .ok out ∧
        pyListify out = specDedupCI (pyListify existing ++ pyListify v) ∧
        (∀ x, specDedupCI (pyListify existing ++ pyListify v) = [x] → out = x) ∧
        (1 < (specDedupCI (pyListify existing ++ pyListify v)).length →
          out = .list (PyList.ofList (specDedupCI (pyListify existing ++ pyListify v)))) ∧
        (specDedupCI (pyListify existing ++ pyListify v)).Sublist
          (pyListify existing ++ pyListify v) ∧
        List.Pairwise (fun a b => pyEqb (ciKey b) (ciKey a) = false)
          (specDedupCI (pyListify existing ++ pyListify v)) ∧
        (∀ x ∈ pyListify existing ++ pyListify v,
          ∃ y ∈ specDedupCI (pyListify existing ++ pyListify v),
            pyEqb (ciKey x) (ciKey y) = true)) ∧
    (∀ existing v : PyVal,
      pyListify existing ++ pyListify v = [] →
      mergeFilterValue existing v = .error ("IndexError: list index out of range")) ∧
    mergeFilterValue (.list .nil) (.list .nil)
      = .error ("IndexError: list index out of range") ∧
    builderFilter [] "a" (.int 1) = .ok [("a", .int 1)] ∧
    builderFilter [("a", .int 1)] "a" (.int 2)
      = .ok [("a", .list (.cons (.int 1) (.cons (.int 2) .nil)))] ∧
    builderFilter [("a", .str "X")] "a" (.str "x") = .ok [("a", .str "X")] := by
  refine ⟨?_, ?_, rfl, rfl, rfl, rfl⟩
  · intro existing v hne hh
    have hded := dedupSeen_spec (pyListify existing ++ pyListify v) [] hh
    have hfil : (pyListify existing ++ pyListify v).filter
        (fun y => !(List.any [] (fun s => pyEqb (ciKey y) s)))
        = pyListify existing ++ pyListify v := by
      rw [List.filter_congr (fun a _ => by simp : ∀ a ∈ pyListify existing ++ pyListify v,
        (fun y => !(List.any [] (fun s => pyEqb (ciKey y) s))) a = (fun _ => true) a)]
      exact List.filter_true _
    rw [hfil] at hded
    have hne2 : specDedupCI (pyListify existing ++ pyListify v) ≠ [] := by
      cases hin : pyListify existing ++ pyListify v with
      | nil => exact absurd hin hne
      | cons a tl => rw [specDedupCI_cons]; simp
    refine ⟨(match specDedupCI (pyListify existing ++ pyListify v) with
             | [x] => x
             | xs => .list (PyList.ofList xs)), ?_, ?_, ?_, ?_,
      specDedupCI_sublist _, specDedupCI_pairwise _, specDedupCI_cover _⟩
    · simp only [mergeFilterValue]
      rw [hded]
      cases hspec : specDedupCI (pyListify existing ++ pyListify v) with
      | nil => exact absurd hspec hne2
      | cons y ys =>
        cases ys with
        | nil => rfl
        | cons z zs => rfl
    · cases hspec : specDedupCI (pyListify existing ++ pyListify v) with
      | nil => exact absurd hspec hne2
      | cons y ys =>
        cases ys with
        | nil =>
          have hymem : y ∈ pyListify existing ++ pyListify v :=
            (specDedupCI_sublist (pyListify existing ++ pyListify v)).mem
              (by rw [hspec]; simp)
          have hy := hh y hymem
          cases y with
          | list xs => simp [ciKey, pyHashable] at hy
          | _ => rfl
        | cons z zs =>
          show pyListify (.list (PyList.ofList (y :: z :: zs))) = y :: z :: zs
          simp [pyListify, PyList.toList_ofList]
    · intro x hx
      rw [hx]
    · intro hlen
      revert hlen
      cases hspec : specDedupCI (pyListify existing ++ pyListify v) with
      | nil => intro hlen; simp at hlen
      | cons y ys =>
        cases ys with
        | nil => intro hlen; simp at hlen
        | cons z zs => intro _; rfl
  · intro existing v he
    simp only [mergeFilterValue]
    rw [he]
    rfl

/-- Witness for C7: the general merge property applied at the concrete
case-insensitive string pair, with both hypotheses discharged there, together
with the concrete builder examples (proved inside the theorem). -/
theorem query_builder_filter_merge_witness :
    (pyListify (.str "X") ++ pyListify (.str "x") ≠ []) ∧
    (∀ x ∈ pyListify (.str "X") ++ pyListify (.str "x"),
      pyHashable (ciKey x) = true) ∧
    (∃ out, mergeFilterValue (.str "X") (.str "x") = .ok out ∧
        pyListify out = specDedupCI (pyListify (.str "X") ++ pyListify (.str "x")) ∧
        (∀ x, specDedupCI (pyListify (.str "X") ++ pyListify (.str "x")) = [x] → out = x) ∧
        (1 < (specDedupCI (pyListify (.str "X") ++ pyListify (.str "x"))).length →
          out = .list (PyList.ofList (specDedupCI (pyListify (.str "X") ++ pyListify (.str "x"))))) ∧
        (specDedupCI (pyListify (.str "X") ++ pyListify (.str "x"))).Sublist
          (pyListify (.str "X") ++ pyListify (.str "x")) ∧
        List.Pairwise (fun a b => pyEqb (ciKey b) (ciKey a) = false)
          (specDedupCI (pyListify (.str "X") ++ pyListify (.str "x"))) ∧
        (∀ x ∈ pyListify (.str "X") ++ pyListify (.str "x"),
          ∃ y ∈ specDedupCI (pyListify (.str "X") ++ pyListify (.str "x")),
            pyEqb (ciKey x) (ciKey y) = true)) :=
  ⟨List.cons_ne_nil _ _, by decide,
   query_builder_filter_merge.1 (.str "X") (.str "x")
     (List.cons_ne_nil _ _) (by decide)⟩

/-!
Embedding of the projection resolution and the sampling branches of
`AgirDB.query` (`agir_db.py`).
-/

/-- The base column list of `AgirDB.query`: discover all table columns when
the caller's projection is `None` or empty (Python falsiness of
`spec.projection`), else copy the caller's list. -/
def baseProjection (tableCols : List String) (proj : Option (List String)) : List String :=
  match proj with
  | Option.none => tableCols
  | some p => if p.isEmpty then tableCols else p

/-- The effective projection: insert the identifier column at the front when
it is missing (`projection_cols.insert(0, self.id_column)`). -/
def effectiveProjection (tableCols : List String) (proj : Option (List String))
    (idCol : String) : List String :=
  let cols := baseProjection tableCols proj
  if idCol ∈ cols then cols else idCol :: cols

/-- Claim C8: the identifier column is always present in the effective
projection; when the base column list omits it, it is inserted at the first
position; when it is already present (including the all-table-columns
default), the list is returned unchanged and no duplicate is added — the
identifier's multiplicity is `max 1` of its multiplicity in the base list,
and it is exactly 1 for the duplicate-free all-columns default. -/
theorem projection_id_column
    (tableCols : List String) (proj : Option (List String)) (idCol : String) :
    idCol ∈ effectiveProjection tableCols proj idCol ∧
    (idCol ∉ baseProjection tableCols proj →
      effectiveProjection tableCols proj idCol = idCol :: baseProjection tableCols proj ∧
      (effectiveProjection tableCols proj idCol).head? = some idCol) ∧
    (idCol ∈ baseProjection tableCols proj →
      effectiveProjection tableCols proj idCol = baseProjection tableCols proj) ∧
    (effectiveProjection tableCols proj idCol).count idCol
      = max 1 ((baseProjection tableCols proj).count idCol) ∧
    (tableCols.Nodup → proj = Option.none →
      (effectiveProjection tableCols proj idCol).count idCol = 1) := by
  unfold effectiveProjection
  by_cases hmem : idCol ∈ baseProjection tableCols proj
  · rw [if_pos hmem]
    refine ⟨hmem, fun hc => absurd hmem hc, fun _ => rfl, ?_, ?_⟩
    · have hpos : 0 < (baseProjection tableCols proj).count idCol :=
        List.count_pos_iff.mpr hmem
      omega
    · intro hnd hnone
      subst hnone
      exact List.count_eq_one_of_mem hnd hmem
  · rw [if_neg hmem]
    refine ⟨by simp, fun _ => ⟨rfl, rfl⟩, fun hc => absurd hc hmem, ?_, ?_⟩
    · have hzero : (baseProjection tableCols proj).count idCol = 0 :=
        List.count_eq_zero.mpr hmem
      rw [List.count_cons_self, hzero]
      rfl
    · intro hnd hnone
      subst hnone
      have hzero : (baseProjection tableCols Option.none).count idCol = 0 :=
        List.count_eq_zero.mpr hmem
      rw [List.count_cons_self, hzero]


/-- Witness for C8 at a concrete projection omitting the identifier column
of a concrete table. -/
theorem projection_id_column_witness :
    "cutout_id" ∈ effectiveProjection ["cutout_id", "image_id", "state"]
      (some ["image_id"]) "cutout_id" ∧
    ("cutout_id" ∉ baseProjection ["cutout_id", "image_id", "state"] (some ["image_id"]) →
      effectiveProjection ["cutout_id", "image_id", "state"] (some ["image_id"]) "cutout_id"
        = "cutout_id" :: baseProjection ["cutout_id", "image_id", "state"] (some ["image_id"]) ∧
      (effectiveProjection ["cutout_id", "image_id", "state"] (some ["image_id"])
        "cutout_id").head? = some "cutout_id") ∧
    ("cutout_id" ∈ baseProjection ["cutout_id", "image_id", "state"] (some ["image_id"]) →
      effectiveProjection ["cutout_id", "image_id", "state"] (some ["image_id"]) "cutout_id"
        = baseProjection ["cutout_id", "image_id", "state"] (some ["image_id"])) ∧
    (effectiveProjection ["cutout_id", "image_id", "state"] (some ["image_id"])
      "cutout_id").count "cutout_id"
      = max 1 ((baseProjection ["cutout_id", "image_id", "state"]
          (some ["image_id"])).count "cutout_id") ∧
    ((["cutout_id", "image_id", "state"] : List String).Nodup →
      (some ["image_id"] : Option (List String)) = Option.none →
      (effectiveProjection ["cutout_id", "image_id", "state"] (some ["image_id"])
        "cutout_id").count "cutout_id" = 1) :=
  projection_id_column ["cutout_id", "image_id", "state"] (some ["image_id"]) "cutout_id"

/-- A row of the SQLite row store: the stable per-row ordinal `rowid` plus
the projected column cells in order. -/
structure DbRow where
  rowid : Int
  cells : List (String × PyVal)

/-- The deterministic ordering key of `seeded_order_sql`:
`(rowid * 1103515245 + seed) & 0x7fffffff`.  On two's-complement integers the
31-bit mask equals reduction modulo `2^31` (Lean's `Int.emod` by a positive
modulus, which is non-negative).  The model assumes the product stays within
SQLite's 64-bit integer range (beyond it SQLite falls back to floating
point), which holds for realistic rowids. -/
def orderKey (rowid seed : Int) : Int :=
  (rowid * 1103515245 + seed) % (2 ^ 31)

/-- The resolved sample size `int(sample.get("n", spec.limit or 0))` of the
random/seeded branches (`spec.limit or 0` equals `spec.limit` when present —
`0` is falsy and `or` then yields the same value `0`). -/
def resolveN (sampleN specLimit : Option Int) : Int :=
  match sampleN with
  | some n => n
  | Option.none => specLimit.getD 0

/-- The seeded branch of `AgirDB.query`: validate `n`, then order the
filtered rows by the seeded key (ties kept in natural row order — stable
sort) and apply `LIMIT n`. -/
def runSeeded (rows : List DbRow) (sampleN specLimit sampleSeed : Option Int) :
    Except String (List DbRow) :=
  let n := resolveN sampleN specLimit
  if n ≤ 0 then .error ("sample.seeded requires 'n' > 0")
  else
    let seed := sampleSeed.getD 0
    .ok ((rows.mergeSort
      (fun a b => decide (orderKey a.rowid seed ≤ orderKey b.rowid seed))).take n.toNat)

/-- Claim C2: for a seeded query the executor errors before reading any row
when the resolved `n ≤ 0`; otherwise it returns the first `n` rows of a
permutation of the filtered rows that is sorted by the key
`(rowid * 1103515245 + seed) & 0x7fffffff`, so the result has
`min n (#rows)` rows; and the result depends only on the row list, the
resolved `n` and the seed — two executions with the same seed over an
unchanged filtered row set return the identical ordering. -/
theorem seeded_sampling_deterministic
    (rows : List DbRow) (sampleN specLimit sampleSeed : Option Int) :
    (resolveN sampleN specLimit ≤ 0 →
      runSeeded rows sampleN specLimit sampleSeed
        = .error ("sample.seeded requires 'n' > 0")) ∧
    (0 < resolveN sampleN specLimit →
      ∃ sorted : List DbRow, sorted.Perm rows ∧
        List.Pairwise (fun a b =>
          orderKey a.rowid (sampleSeed.getD 0) ≤ orderKey b.rowid (sampleSeed.getD 0))
          sorted ∧
        runSeeded rows sampleN specLimit sampleSeed
          = .ok (sorted.take (resolveN sampleN specLimit).toNat) ∧
        (sorted.take (resolveN sampleN specLimit).toNat).length
          = min (resolveN sampleN specLimit).toNat rows.length) ∧
    (∀ sampleN' specLimit' sampleSeed',
      resolveN sampleN specLimit = resolveN sampleN' specLimit' →
      sampleSeed.getD 0 = sampleSeed'.getD 0 →
      runSeeded rows sampleN specLimit sampleSeed
        = runSeeded rows sampleN' specLimit' sampleSeed') := by
  refine ⟨?_, ?_, ?_⟩
  · intro hn
    unfold runSeeded
    rw [if_pos hn]
  · intro hn
    set seed := sampleSeed.getD 0 with hseed
    set le := fun a b : DbRow => decide (orderKey a.rowid seed ≤ orderKey b.rowid seed)
      with hle
    refine ⟨rows.mergeSort le, List.mergeSort_perm rows le, ?_, ?_, ?_⟩
    · have hsorted := @List.sorted_mergeSort DbRow le
        (fun a b c hab hbc => by
          simp only [hle, decide_eq_true_iff] at hab hbc ⊢
          omega)
        (fun a b => by
          simp only [hle]
          rcases Int.le_total (orderKey a.rowid seed) (orderKey b.rowid seed) with h | h
          · simp [h]
          · simp [h])
        rows
      exact hsorted.imp (fun hab => by
        simp only [hle, decide_eq_true_iff] at hab
        exact hab)
    · unfold runSeeded
      rw [if_neg (by omega)]
    · rw [List.length_take, (List.mergeSort_perm rows le).length_eq]
  · intro sampleN' specLimit' sampleSeed' hn hs
    unfold runSeeded
    rw [hn, hs]

/-- Witness for C2: the error case at resolved `n = 0` and the sorted-take
case at `n = 2`, `seed = 7`, over three concrete rows. -/
theorem seeded_sampling_deterministic_witness :
    runSeeded [⟨1, []⟩, ⟨2, []⟩, ⟨3, []⟩] (some 0) Option.none (some 7)
      = .error ("sample.seeded requires 'n' > 0") ∧
    (∃ sorted : List DbRow, sorted.Perm [⟨1, []⟩, ⟨2, []⟩, ⟨3, []⟩] ∧
        List.Pairwise (fun a b =>
          orderKey a.rowid ((some (7:Int)).getD 0) ≤ orderKey b.rowid ((some (7:Int)).getD 0))
          sorted ∧
        runSeeded [⟨1, []⟩, ⟨2, []⟩, ⟨3, []⟩] (some 2) Option.none (some 7)
          = .ok (sorted.take (resolveN (some 2) Option.none).toNat) ∧
        (sorted.take (resolveN (some 2) Option.none).toNat).length
          = min (resolveN (some 2) Option.none).toNat
              ([⟨1, []⟩, ⟨2, []⟩, ⟨3, []⟩] : List DbRow).length) :=
  ⟨(seeded_sampling_deterministic [⟨1, []⟩, ⟨2, []⟩, ⟨3, []⟩]
      (some 0) Option.none (some 7)).1 (by norm_num [resolveN]),
   (seeded_sampling_deterministic [⟨1, []⟩, ⟨2, []⟩, ⟨3, []⟩]
      (some 2) Option.none (some 7)).2.1 (by norm_num [resolveN])⟩

/-- SQL value equality on optional cell values (absent columns are `NULL`;
`NULL` compared equal to `NULL` here models grouping semantics, where
`PARTITION BY` places `NULL`s in one group). -/
def optEqb (a b : Option PyVal) : Bool :=
  match a, b with
  | some x, some y => pyEqb x y
  | Option.none, Option.none => true
  | _, _ => false

/-- Grouping-key equality for the cartesian `by`-column key. -/
def keyEqb (a b : List (Option PyVal)) : Bool :=
  a.length == b.length && (List.zip a b).all (fun p => optEqb p.1 p.2)

/-- The cartesian grouping key of a row: the values of the `by` columns. -/
def byKey (byCols : List String) (r : DbRow) : List (Option PyVal) :=
  byCols.map (fun c => List.lookup c r.cells)

theorem optEqb_refl (a : Option PyVal) : optEqb a a = true := by
  cases a with
  | none => rfl
  | some x => simpa [optEqb] using pyEqb_refl x

theorem keyEqb_refl (a : List (Option PyVal)) : keyEqb a a = true := by
  unfold keyEqb
  simp only [beq_self_eq_true, Bool.true_and, List.all_eq_true]
  induction a with
  | nil => intro p hp; simp at hp
  | cons x tl ih =>
    intro p hp
    rw [List.zip_cons_cons] at hp
    rcases List.mem_cons.mp hp with hp | hp
    · subst hp; exact optEqb_refl x
    · exact ih p hp

/-- SQLite semantics of the `LIMIT ?/OFFSET ?` tail emitted by
`build_limit_offset`: OFFSET drops rows (a negative offset behaves as 0),
then LIMIT takes rows (a negative limit means no limit).  (An offset without
a limit would produce syntactically invalid SQL; the claims settled here
exercise the limit and the no-paging cases.) -/
def applyLimitOffset (limit offset : Option Int) (l : List α) : List α :=
  let afterOff :=
    match offset with
    | some o => l.drop o.toNat
    | Option.none => l
  match limit with
  | some lim => if lim < 0 then afterOff else afterOff.take lim.toNat
  | Option.none => afterOff

/-- The stratified branch of `AgirDB.query`: validate `by` and `per_group`,
attach the per-partition random rank `__rn` (`ROW_NUMBER() OVER (PARTITION BY
... ORDER BY RANDOM())`, modelled by the `rank` parameter), keep rows with
`__rn ≤ per_group`, then apply the caller's limit/offset atop the capped
result.  The result rows carry their `__rn` value (the outer `SELECT *`
retains the window column). -/
def runStratified (rows : List DbRow) (rank : DbRow → Nat) (byCols : List String)
    (k : Int) (limit offset : Option Int) : Except String (List (DbRow × Nat)) :=
  if byCols.isEmpty then .error ("sample.stratified requires 'by': [col,...]")
  else if k ≤ 0 then .error ("sample.stratified requires 'per_group' > 0")
  else
    let capped := (rows.map (fun r => (r, rank r))).filter (fun p => (p.2 : Int) ≤ k)
    .ok (applyLimitOffset limit offset capped)

/-- The ranking produced by `ROW_NUMBER() OVER (PARTITION BY key ORDER BY
RANDOM())`: within each group present among the rows, the ranks are exactly
`1..size of the group` in some order. -/
def IsRanking (rows : List DbRow) (byCols : List String) (rank : DbRow → Nat) : Prop :=
  ∀ g ∈ rows.map (byKey byCols),
    ((rows.filter (fun r => keyEqb (byKey byCols r) g)).map rank).Perm
      (List.range' 1 (rows.filter (fun r => keyEqb (byKey byCols r) g)).length)

theorem countP_le_range' (t : Nat) : ∀ n : Nat,
    (List.range' 1 n).countP (fun x => decide (x ≤ t)) = min t n := by
  intro n
  induction n with
  | zero => simp
  | succ m ih =>
    rw [List.range'_concat, List.countP_append, ih]
    by_cases hm : 1 + m ≤ t
    · rw [List.countP_cons]
      simp only [List.countP_nil]
      rw [if_pos (by simpa using hm)]
      omega
    · rw [List.countP_cons]
      simp only [List.countP_nil]
      rw [if_neg (by simpa using hm)]
      omega

theorem applyLimitOffset_sublist (limit offset : Option Int) (l : List α) :
    (applyLimitOffset limit offset l).Sublist l := by
  unfold applyLimitOffset
  rcases limit with _ | lim <;> rcases offset with _ | o <;> dsimp only
  · exact List.Sublist.refl l
  · exact List.drop_sublist _ _
  · split
    · exact List.Sublist.refl l
    · exact List.take_sublist _ _
  · split
    · exact List.drop_sublist _ _
    · exact (List.take_sublist _ _).trans (List.drop_sublist _ _)

theorem stratified_capped_count
    (rows : List DbRow) (rank : DbRow → Nat) (byCols : List String) (k : Int)
    (hk : 0 < k) (hrank : IsRanking rows byCols rank)
    (g : List (Option PyVal)) (hg : g ∈ rows.map (byKey byCols)) :
    (((rows.map (fun r => (r, rank r))).filter
        (fun p => decide ((p.2 : Int) ≤ k))).filter
        (fun p => keyEqb (byKey byCols p.1) g)).length
      = min k.toNat (rows.filter (fun r => keyEqb (byKey byCols r) g)).length := by
  rw [← List.countP_eq_length_filter, List.countP_filter, List.countP_map]
  have hstep1 : List.countP
      ((fun p : DbRow × Nat => keyEqb (byKey byCols p.1) g && decide ((p.2 : Int) ≤ k))
        ∘ (fun r => (r, rank r))) rows
      = List.countP (fun r => decide ((rank r : Int) ≤ k))
          (rows.filter (fun r => keyEqb (byKey byCols r) g)) := by
    rw [List.countP_filter]
    apply List.countP_congr
    intro r _
    simp [Function.comp, Bool.and_comm]
  rw [hstep1]
  have hstep2 : List.countP (fun r => decide ((rank r : Int) ≤ k))
      (rows.filter (fun r => keyEqb (byKey byCols r) g))
      = List.countP (fun x => decide (x ≤ k.toNat))
          ((rows.filter (fun r => keyEqb (byKey byCols r) g)).map rank) := by
    rw [List.countP_map]
    apply List.countP_congr
    intro r _
    simp only [Function.comp, decide_eq_true_iff]
    exact (Int.le_toNat (Int.le_of_lt hk)).symm
  rw [hstep2, (hrank g hg).countP_eq, countP_le_range']

/-- Claim C3 counterexample data: two rows in one group. -/
def c3rows : List DbRow := [⟨1, [("c", PyVal.int 0)]⟩, ⟨2, [("c", PyVal.int 0)]⟩]

/-- Rank by rowid within the single group. -/
def c3rank (r : DbRow) : Nat := r.rowid.toNat

/-- Claim C3 counterexample: with `per_group = 2` over one group of size 2
but `limit = 1`, the stratified result returns 1 row from the group, not
`min(2, 2) = 2` — limit/offset apply atop the per-group cap, so "exactly
min(k, group size) rows from each group" fails for queries that also carry a
limit. -/
theorem stratified_limit_counterexample :
    runStratified c3rows c3rank ["c"] 2 (some 1) Option.none
      = .ok [(⟨1, [("c", PyVal.int 0)]⟩, 1)] ∧
    (([((⟨1, [("c", PyVal.int 0)]⟩ : DbRow), 1)]).filter
        (fun p => keyEqb (byKey ["c"] p.1) [some (PyVal.int 0)])).length = 1 ∧
    min (2 : Int).toNat
      ((c3rows.filter (fun r => keyEqb (byKey ["c"] r) [some (PyVal.int 0)])).length) = 2 ∧
    (1 : Nat) ≠ 2 :=
  ⟨rfl, rfl, rfl, by omega⟩

/-- Claim C3 (amended): for a stratified query with non-empty `by` columns
and `per_group = k > 0`, under the row-number ranking semantics, when no
limit/offset is specified the result contains exactly `min(k, group size)`
rows from each distinct `by`-key combination present among the filtered
rows; and with any limit/offset the result never contains more than `k`
rows per group (limit/offset apply atop the capped result). -/
theorem stratified_per_group_counts
    (rows : List DbRow) (rank : DbRow → Nat) (byCols : List String) (k : Int)
    (hby : byCols.isEmpty = false) (hk : 0 < k) (hrank : IsRanking rows byCols rank) :
    ∃ res, runStratified rows rank byCols k Option.none Option.none = .ok res ∧
      (∀ g ∈ rows.map (byKey byCols),
        (res.filter (fun p => keyEqb (byKey byCols p.1) g)).length
          = min k.toNat (rows.filter (fun r => keyEqb (byKey byCols r) g)).length) ∧
      (∀ (limit offset : Option Int) (res' : List (DbRow × Nat)),
        runStratified rows rank byCols k limit offset = .ok res' →
        ∀ g ∈ rows.map (byKey byCols),
          (res'.filter (fun p => keyEqb (byKey byCols p.1) g)).length ≤ k.toNat) := by
  have hok : runStratified rows rank byCols k Option.none Option.none
      = .ok ((rows.map (fun r => (r, rank r))).filter
          (fun p => decide ((p.2 : Int) ≤ k))) := by
    unfold runStratified
    rw [if_neg (by simp [hby]), if_neg (by omega)]
    rfl
  refine ⟨_, hok, ?_, ?_⟩
  · intro g hg
    exact stratified_capped_count rows rank byCols k hk hrank g hg
  · intro limit offset res' hres' g hg
    have hres'eq : res' = applyLimitOffset limit offset
        ((rows.map (fun r => (r, rank r))).filter (fun p => decide ((p.2 : Int) ≤ k))) := by
      unfold runStratified at hres'
      rw [if_neg (by simp [hby]), if_neg (by omega)] at hres'
      injection hres' with h1
      exact h1.symm
    have hsub : res'.Sublist
        ((rows.map (fun r => (r, rank r))).filter (fun p => decide ((p.2 : Int) ≤ k))) := by
      rw [hres'eq]
      exact applyLimitOffset_sublist _ _ _
    have hle := (hsub.filter (fun p => keyEqb (byKey byCols p.1) g)).length_le
    have hcap := stratified_capped_count rows rank byCols k hk hrank g hg
    rw [hcap] at hle
    omega

/-- Witness rows for C3: three groups of sizes 5, 3 and 10 keyed by column
`c`, with rowids encoding the within-group ordinal. -/
def c3wRows : List DbRow :=
  ((List.range' 1 5).map (fun j => (⟨j, [("c", PyVal.int 0)]⟩ : DbRow))) ++
  ((List.range' 1 3).map (fun j => (⟨100 + j, [("c", PyVal.int 1)]⟩ : DbRow))) ++
  ((List.range' 1 10).map (fun j => (⟨200 + j, [("c", PyVal.int 2)]⟩ : DbRow)))

/-- Witness ranking for C3: the within-group ordinal encoded in the rowid. -/
def c3wRank (r : DbRow) : Nat := (r.rowid % 100).toNat

/-- Witness for C3: per-group counts `min(4, size)` over groups of sizes
{5,3,10} (4 + 3 + 4 = 11 rows in total), with hypotheses discharged at the
concrete rows and ranking. -/
theorem stratified_per_group_counts_witness :
    (∃ res, runStratified c3wRows c3wRank ["c"] 4 Option.none Option.none = .ok res ∧
      (∀ g ∈ c3wRows.map (byKey ["c"]),
        (res.filter (fun p => keyEqb (byKey ["c"] p.1) g)).length
          = min (4 : Int).toNat (c3wRows.filter (fun r => keyEqb (byKey ["c"] r) g)).length) ∧
      (∀ (limit offset : Option Int) (res' : List (DbRow × Nat)),
        runStratified c3wRows c3wRank ["c"] 4 limit offset = .ok res' →
        ∀ g ∈ c3wRows.map (byKey ["c"]),
          (res'.filter (fun p => keyEqb (byKey ["c"] p.1) g)).length ≤ (4 : Int).toNat)) ∧
    (match runStratified c3wRows c3wRank ["c"] 4 Option.none Option.none with
     | .ok res => res.length
     | .error _ => 0) = 11 :=
  ⟨stratified_per_group_counts c3wRows c3wRank ["c"] 4 rfl (by omega)
      (by unfold IsRanking; decide),
   by rfl⟩

/-- The pass-through map (`extras`) of a record built from a stratified
result row: `_row_to_record` copies every column of the fetched row
(`data = {k: row[k] for k in row.keys()}`), and the outer `SELECT *` retains
the `__rn` window column after the projected columns. -/
def stratRecordExtras (p : DbRow × Nat) : List (String × PyVal) :=
  p.1.cells ++ [("__rn", PyVal.int (p.2 : Int))]

/-- The pass-through map of a record from a non-stratified query: exactly
the selected columns. -/
def plainRecordExtras (r : DbRow) : List (String × PyVal) := r.cells

/-- Claim C10: every record yielded by a stratified query carries, in
addition to the projected source columns, the synthetic `__rn` column
holding the row's within-group rank, an integer between 1 and `per_group`;
records of queries with any other strategy (whose extras are exactly the
selected columns) carry no `__rn` column, provided the projection itself has
no column of that name. -/
theorem stratified_rn_in_extras
    (rows : List DbRow) (rank : DbRow → Nat) (byCols : List String) (k : Int)
    (limit offset : Option Int) (res : List (DbRow × Nat))
    (hnorn : ∀ r ∈ rows, "__rn" ∉ r.cells.map Prod.fst)
    (hrank : IsRanking rows byCols rank)
    (hres : runStratified rows rank byCols k limit offset = .ok res) :
    (∀ p ∈ res, List.lookup "__rn" (stratRecordExtras p) = some (PyVal.int (p.2 : Int)) ∧
      1 ≤ p.2 ∧ (p.2 : Int) ≤ k) ∧
    (∀ r : DbRow, "__rn" ∉ r.cells.map Prod.fst →
      List.lookup "__rn" (plainRecordExtras r) = Option.none) := by
  have hlookup_none : ∀ r : DbRow, "__rn" ∉ r.cells.map Prod.fst →
      List.lookup "__rn" r.cells = Option.none := by
    intro r hr
    rw [List.lookup_eq_none_iff]
    intro p hp
    simp only [bne_iff_ne, ne_eq]
    intro hc
    exact hr (List.mem_map.mpr ⟨p, hp, hc.symm⟩)
  refine ⟨?_, fun r hr => hlookup_none r hr⟩
  intro p hp
  unfold runStratified at hres
  split at hres
  · exact absurd hres (by simp)
  split at hres
  · exact absurd hres (by simp)
  injection hres with h1
  subst h1
  have hcap := (applyLimitOffset_sublist limit offset
      ((rows.map (fun r => (r, rank r))).filter (fun q => decide ((q.2 : Int) ≤ k)))).mem hp
  obtain ⟨hmem, hle⟩ := List.mem_filter.mp hcap
  obtain ⟨r, hrmem, hrp⟩ := List.mem_map.mp hmem
  subst hrp
  simp only [decide_eq_true_iff] at hle
  refine ⟨?_, ?_, hle⟩
  · unfold stratRecordExtras
    rw [List.lookup_append, hlookup_none r (hnorn r hrmem)]
    rfl
  · have hg : byKey byCols r ∈ rows.map (byKey byCols) := List.mem_map.mpr ⟨r, hrmem, rfl⟩
    have hperm := hrank (byKey byCols r) hg
    have hrgrp : r ∈ rows.filter (fun s => keyEqb (byKey byCols s) (byKey byCols r)) :=
      List.mem_filter.mpr ⟨hrmem, keyEqb_refl _⟩
    have hrankmem : rank r ∈ (rows.filter
        (fun s => keyEqb (byKey byCols s) (byKey byCols r))).map rank :=
      List.mem_map.mpr ⟨r, hrgrp, rfl⟩
    have := hperm.mem_iff.mp hrankmem
    exact (List.mem_range'_1.mp this).1

/-- Witness rows for C10: two rows in one group, no `__rn` source column. -/
def c10rows : List DbRow :=
  [⟨1, [("c", PyVal.int 0), ("image_id", PyVal.str "a")]⟩,
   ⟨2, [("c", PyVal.int 0), ("image_id", PyVal.str "b")]⟩]

/-- Witness ranking for C10. -/
def c10rank (r : DbRow) : Nat := r.rowid.toNat

/-- Witness for C10 at the concrete stratified run with `per_group = 1`. -/
theorem stratified_rn_in_extras_witness :
    (∀ p ∈ [((⟨1, [("c", PyVal.int 0), ("image_id", PyVal.str "a")]⟩ : DbRow), 1)],
      List.lookup "__rn" (stratRecordExtras p) = some (PyVal.int (p.2 : Int)) ∧
      1 ≤ p.2 ∧ (p.2 : Int) ≤ 1) ∧
    (∀ r : DbRow, "__rn" ∉ r.cells.map Prod.fst →
      List.lookup "__rn" (plainRecordExtras r) = Option.none) :=
  stratified_rn_in_extras c10rows c10rank ["c"] 1 Option.none Option.none
    [(⟨1, [("c", PyVal.int 0), ("image_id", PyVal.str "a")]⟩, 1)]
    (by decide) (by unfold IsRanking; decide) rfl

/-!
Embedding of the row-streaming loop of `AgirDB.query` and
`_semif_row_to_record`, for the per-row error-handling behaviour.
-/

/-- A fetched row under `row_factory = sqlite3.Row`: column cells by name. -/
structure SqliteRow where
  cells : List (String × PyVal)

/-- The attribute access `row.get(...)` performed by the exception handler of
`AgirDB.query`.  Modelled from the Python stdlib: `sqlite3.Row` exposes only
`keys()`, indexing, iteration, `len` and comparison — it has no `get`
attribute, so the access raises `AttributeError` unconditionally. -/
def sqliteRowGet (_row : SqliteRow) (_key : String) : Except String PyVal :=
  .error ("AttributeError: 'sqlite3.Row' object has no attribute 'get'")

/-- The normalized record (`ImageRecord` of `types.py`), with path fields as
raw path strings (this layer never touches the filesystem). -/
structure ImageRecord where
  cutout_id : String
  image_id : Option String
  image_path : Option String
  mask_path : Option String
  json_path : Option String
  aux_paths : List (String × String)
  extras : List (String × PyVal)

/-- `Path(p)` on a cell value: succeeds on strings, raises `TypeError` on any
other (truthy) value such as an integer. -/
def pathOf (v : PyVal) : Except String String :=
  match v with
  | .str s => .ok s
  | _ => .error ("TypeError: argument should be a str or an os.PathLike object")

/-- An optional path field: `Path(data[col]) if data.get(col) else None`. -/
def optPath (data : List (String × PyVal)) (col : String) :
    Except String (Option String) :=
  match List.lookup col data with
  | some p => if pyTruthy p then (pathOf p).map some else .ok Option.none
  | Option.none => .ok Option.none

/-- Model of `_semif_row_to_record`: collect the auxiliary `*_path` columns,
then build the record; any truthy non-string path cell raises. -/
def semifRowToRecord (data : List (String × PyVal)) : Except String ImageRecord := do
  let auxCols := ["cutout_path", "cutout_mask_path", "cutout_json_path", "cropout_path"]
  let aux ← auxCols.foldlM (fun acc col =>
    match List.lookup col data with
    | some p =>
      if pyTruthy p then do
        let s ← pathOf p
        pure (acc ++ [(col, s)])
      else pure acc
    | Option.none => pure acc) ([] : List (String × String))
  let imgp ← optPath data "image_path"
  let maskp ← optPath data "mask_path"
  let jsonp ← optPath data "json_path"
  let imageId := match List.lookup "image_id" data with
    | some v => if pyTruthy v then some (pyStr v) else Option.none
    | Option.none => Option.none
  pure ⟨pyStr ((List.lookup "cutout_id" data).getD .none), imageId,
        imgp, maskp, jsonp, aux, data⟩

/-- The streaming loop of `AgirDB.query` with its per-row exception handler,
threading the `(rows_scanned, rows_returned, rows_invalid)` counters.  On a
conversion failure the handler increments the invalid counter and then
evaluates `row.get(self.id_column)` as a `log.warning` argument — which
itself raises `AttributeError` (see `sqliteRowGet`), escaping the handler
and aborting the whole query. -/
def queryLoop (idCol : String) : List SqliteRow → Nat × Nat × Nat →
    Except String (List ImageRecord × Nat × Nat × Nat)
  | [], (s, r, i) => .ok ([], s, r, i)
  | row :: tl, (s, r, i) =>
    match semifRowToRecord row.cells with
    | .ok rec =>
      (match queryLoop idCol tl (s + 1, r + 1, i) with
       | .ok (recs, c) => .ok (rec :: recs, c)
       | .error e => .error e)
    | .error _e =>
      (match sqliteRowGet row idCol with
       | .ok _ => queryLoop idCol tl (s + 1, r, i + 1)
       | .error attrErr => .error attrErr)

/-- A convertible row. -/
def c5goodRow : SqliteRow :=
  ⟨[("cutout_id", .str "c1"), ("image_path", .str "/img/a.png")]⟩

/-- A row whose conversion fails: `image_path` holds the integer 3, so
`Path(3)` raises `TypeError`. -/
def c5badRow : SqliteRow :=
  ⟨[("cutout_id", .str "c2"), ("image_path", .int 3)]⟩

/-- A second convertible row, lost because the query aborts before it. -/
def c5goodRow2 : SqliteRow :=
  ⟨[("cutout_id", .str "c3"), ("image_path", .str "/img/b.png")]⟩

/-- Claim C5 (code bug): a row-level conversion failure does NOT merely
increment the invalid counter and continue — the handler's
`row.get(self.id_column)` raises `AttributeError` because `sqlite3.Row` has
no `get` method, so the query aborts (and subsequent good rows are lost),
contradicting both the claim and the code's own intent (its log message and
statistics).  Evaluated at the failing input: the bad row's conversion
raises `TypeError`, and the whole stream then raises `AttributeError`. -/
theorem row_conversion_failure_aborts_query :
    semifRowToRecord c5badRow.cells
      = .error ("TypeError: argument should be a str or an os.PathLike object") ∧
    semifRowToRecord c5goodRow.cells
      = .ok ⟨"c1", Option.none, some "/img/a.png", Option.none, Option.none, [],
             c5goodRow.cells⟩ ∧
    queryLoop ("cutout_id") [c5goodRow, c5badRow, c5goodRow2] (0, 0, 0)
      = .error ("AttributeError: 'sqlite3.Row' object has no attribute 'get'") :=
  ⟨rfl, rfl, rfl⟩

/-!
Object-level embedding of `QueryBuilder.filter` / `QueryBuilder.to_spec`,
tracking Python object identity of list values with an explicit heap, to
settle the freezing behaviour of `QuerySpec`.
-/

/-- The heap of live Python list objects, addressed by allocation index. -/
structure Heap where
  cells : List (List PyVal)

/-- Read a list object. -/
def Heap.get (h : Heap) (a : Nat) : List PyVal :=
  h.cells.getD a []

/-- Mutate a list object in place. -/
def Heap.set (h : Heap) (a : Nat) (xs : List PyVal) : Heap :=
  ⟨h.cells.set a xs⟩

/-- Allocate a fresh list object. -/
def Heap.alloc (h : Heap) (xs : List PyVal) : Heap × Nat :=
  (⟨h.cells ++ [xs]⟩, h.cells.length)

/-- A value stored in the builder's filter dict: immediate scalar, or a
reference to a heap-allocated list object. -/
inductive BVal where
  | scalar (v : PyVal)
  | ref (a : Nat)

/-- The observable Python value of a stored entry (dereferencing lists). -/
def BVal.value (h : Heap) : BVal → PyVal
  | .scalar v => v
  | .ref a => .list (PyList.ofList (h.get a))

/-- The observable filters of a builder dict or frozen spec. -/
def obsFilters (filters : List (String × BVal)) (h : Heap) : List (String × PyVal) :=
  filters.map (fun kv => (kv.1, kv.2.value h))

/-- Model of `QueryBuilder.to_spec()`'s filter freezing: pydantic v2 dict
validation builds a new outer dict whose `Any`-typed values are the same
objects, so the spec shares every list object with the builder. -/
def toSpecFilters (filters : List (String × BVal)) : List (String × BVal) :=
  filters

/-- One `k = v` step of `QueryBuilder.filter` at the object level.  A
first-time key stores the caller's object itself.  For an existing key whose
stored value is a list object, `existing.extend(v)` / `existing.append(v)`
mutates that object in place; the dedup then builds a new list which is
stored into the builder's dict (as a new object, as the bare scalar when one
value remains, or raising `IndexError` at `merged[0]` for the empty merge of
two empty lists).  A scalar existing value is promoted to a fresh list, so
no heap object is mutated in that case. -/
def builderFilterObj (filters : List (String × BVal)) (h : Heap) (k : String)
    (v : BVal) : Except String (List (String × BVal) × Heap) :=
  match List.lookup k filters with
  | Option.none => .ok (filters ++ [(k, v)], h)
  | some existing =>
    let vElems := match v with
      | .ref b => h.get b
      | .scalar x => [x]
    match existing with
    | .ref a => do
      let appended := h.get a ++ vElems
      let h1 := h.set a appended
      let merged ← dedupSeen [] appended
      match merged with
      | [] => .error ("IndexError: list index out of range")
      | [x] =>
        .ok (filters.map (fun kv => if kv.1 = k then (k, .scalar x) else kv), h1)
      | xs =>
        let alloc := h1.alloc xs
        .ok (filters.map (fun kv => if kv.1 = k then (k, .ref alloc.2) else kv), alloc.1)
    | .scalar s0 => do
      let appended := [s0] ++ vElems
      let merged ← dedupSeen [] appended
      match merged with
      | [] => .error ("IndexError: list index out of range")
      | [x] =>
        .ok (filters.map (fun kv => if kv.1 = k then (k, .scalar x) else kv), h)
      | xs =>
        let alloc := h.alloc xs
        .ok (filters.map (fun kv => if kv.1 = k then (k, .ref alloc.2) else kv), alloc.1)

/-- Claim C9 (code bug): a `QuerySpec` can mutate after creation.  The run
`filter(a=[1]); spec = to_spec(); filter(a=2)` is evaluated step by step:
the frozen spec observes `a = [1]`, the later `filter` call appends in place
to the list object shared with the spec, and the spec's observable filters
become `a = [1, 2]` — the spec mutated after creation. -/
theorem spec_mutates_after_freeze :
    Heap.alloc ⟨[]⟩ [PyVal.int 1] = (⟨[[PyVal.int 1]]⟩, 0) ∧
    builderFilterObj [] ⟨[[PyVal.int 1]]⟩ "a" (.ref 0)
      = .ok ([("a", .ref 0)], ⟨[[PyVal.int 1]]⟩) ∧
    obsFilters (toSpecFilters [("a", .ref 0)]) ⟨[[PyVal.int 1]]⟩
      = [("a", .list (.cons (.int 1) .nil))] ∧
    builderFilterObj [("a", .ref 0)] ⟨[[PyVal.int 1]]⟩ "a" (.scalar (.int 2))
      = .ok ([("a", .ref 1)],
             ⟨[[PyVal.int 1, PyVal.int 2], [PyVal.int 1, PyVal.int 2]]⟩) ∧
    obsFilters (toSpecFilters [("a", .ref 0)])
        ⟨[[PyVal.int 1, PyVal.int 2], [PyVal.int 1, PyVal.int 2]]⟩
      = [("a", .list (.cons (.int 1) (.cons (.int 2) .nil)))] ∧
    ([("a", PyVal.list (.cons (.int 1) .nil))] : List (String × PyVal))
      ≠ [("a", PyVal.list (.cons (.int 1) (.cons (.int 2) .nil)))] :=
  ⟨rfl, rfl, rfl, rfl, rfl, by simp⟩
